import Mathlib

/-!
# Lexical analyzer: the `matcher` scan loop of `tokenizer.c`

A shallow embedding of `matcher` (tokenizer.c, lines 40-85) and of the helpers it
uses, followed by the properties of the scan that the specification states.

Representation choices.
* A C string is the list of its characters before the terminating NUL
  (`CStr`); the pointer `string` is the offset `pos` into that list. Reading
  `*string` at `pos < length` gives a non-NUL character, at `pos = length` the NUL,
  and at `pos > length` it is a read outside the object.
* An array with its length (`tokens`/`ntoken`, `tokenBuf`/`nbuf`) is a list; `ntoken`
  and `nbuf` are the lengths of the lists. A `NULL` entry of `tokenBuf` is `none`.
* The POSIX regex library (`regcomp`, `regexec`, `regerror`) is not code of the
  program: it is a parameter `RegexLib`.
* `int`/`size_t` counters are natural numbers: the lengths involved are assumed to
  fit in an `int`.
* `malloc` is assumed to succeed.
-/

namespace Tokenizer

/-- The characters of a C string, terminating NUL excluded. -/
abbrev CStr := List Char

/-- One grammar rule, `struct Token`: a regular expression and its display name. -/
structure token_t where
  regex : CStr
  name : CStr
deriving DecidableEq, Repr

/-- The offsets `regexec` reports for the whole match, `regmatch_t`. -/
structure regmatch_t where
  rm_so : Nat
  rm_eo : Nat
deriving DecidableEq, Repr

/-- The regex library the program links against.
* `regcomp pat` is the status of `regcomp(&preg, pat, REG_EXTENDED)`, `0` on success;
* `regexec pat text` is the outcome of `regexec(&preg, text, 1, &match, REG_NOTBOL)`
  for the compiled `pat`: `none` when it returns non-zero, `some match` otherwise;
* `regerror status` is the message `regerror` produces for a status. -/
structure RegexLib where
  regcomp : CStr → Nat
  regexec : CStr → CStr → Option regmatch_t
  regerror : Nat → CStr

/-- What POSIX promises about a successful `regexec`: the reported match lies inside
the text, `0 ≤ rm_so ≤ rm_eo ≤ strlen(text)`. -/
def RegexLib.WellFormed (E : RegexLib) : Prop :=
  ∀ pat text m, E.regexec pat text = some m → m.rm_so ≤ m.rm_eo ∧ m.rm_eo ≤ text.length

/-- The test `isspace(c)` of `<ctype.h>` in the "C" locale: space, `\t`, `\n`, `\v`,
`\f`, `\r`. -/
def isspace (c : Char) : Bool :=
  c.toNat = 32 || (9 ≤ c.toNat && c.toNat ≤ 13)

/-- The ways the model of a run of `matcher` ends without returning.
* `regexException status msg`: line 62, `regexException` prints `msg` and calls `exit(1)`;
* `storeOutOfBounds j`: line 75 stores `tokenBuf[j]` with `j ≥ nbuf`;
* `readOutOfBounds pos`: line 49 reads `*string` past the terminating NUL;
* `outOfFuel`: the iteration budget of the model ran out.

The program has no check at line 75 and no stop at line 49: after such a store or read
it goes on, with the memory next to the buffer or to the input. What it does from there
depends on that memory, which the model does not contain: `storeOutOfBounds j` and
`readOutOfBounds pos` say that the run performs this store or this read, and the model
does not follow the run further. -/
inductive Abort where
  | regexException (status : Nat) (msg : CStr)
  | storeOutOfBounds (j : Nat)
  | readOutOfBounds (pos : Nat)
  | outOfFuel
deriving DecidableEq, Repr

/-- The variables of `matcher` that survive an iteration: the cursor `string` (as an
offset), the next free index `j`, the buffer `tokenBuf`, and what has been written
to standard output (one entry per `printf` call). -/
structure State where
  pos : Nat
  j : Nat
  tokenBuf : List (Option CStr)
  out : List CStr
deriving DecidableEq, Repr

/-- How a run ends: it returns with a final state, or it aborts. -/
inductive Outcome where
  | returned (s : State)
  | aborted (a : Abort)
deriving DecidableEq, Repr

/-- The result of the rule loop (lines 56-80): the state it leaves and `hasMatched`. -/
inductive RuleLoop where
  | done (s : State) (hasMatched : Bool)
  | aborted (a : Abort)
deriving DecidableEq, Repr

/-- Line 54, `while(*string && isspace(*string)) string++;`: the cursor after the
whitespace run that starts at `pos`. -/
def skipSpace (string : CStr) (pos : Nat) : Nat :=
  pos + ((string.drop pos).takeWhile isspace).length

/-- The substring lines 70-74 build for a match `m` found with the cursor at `pos`:
`strncpy(substr, string + start, len)` with `substr[len] = 0`. -/
def substr (string : CStr) (pos : Nat) (m : regmatch_t) : CStr :=
  (string.drop (pos + m.rm_so)).take (m.rm_eo - m.rm_so)

/-- Line 76, `printf("%.*s\t%s\n", end - start, string + start, tok.name)`. -/
def diagLine (string : CStr) (pos : Nat) (m : regmatch_t) (tok : token_t) : CStr :=
  (string.drop (pos + m.rm_so)).take (m.rm_eo - m.rm_so) ++ '\t' :: tok.name ++ ['\n']

/-- Lines 67-77, the body of the `if` for a match `m` of rule `tok`: store the
substring at `tokenBuf[j]`, increment `j`, print the diagnostic line, move the
cursor by `end`. The code stores without a check; when `j ≥ nbuf` the store is outside
the buffer, and the model records it and follows the run no further. -/
def emit (string : CStr) (tok : token_t) (m : regmatch_t) (s : State) : RuleLoop :=
  if s.j < s.tokenBuf.length then
    .done
      { pos := s.pos + m.rm_eo
        j := s.j + 1
        tokenBuf := s.tokenBuf.set s.j (some (substr string s.pos m))
        out := s.out ++ [diagLine string s.pos m tok] }
      true
  else .aborted (.storeOutOfBounds s.j)

/-- Lines 56-80, `while (i < ntoken && !hasMatched)` over the rules not yet tried:
compile the rule (abort when that fails), run it on the remaining input, and stop
at the first rule whose match starts at offset 0. -/
def ruleLoop (E : RegexLib) (string : CStr) : List token_t → State → RuleLoop
  | [], s => .done s false
  | tok :: rest, s =>
    if E.regcomp tok.regex ≠ 0 then
      .aborted (.regexException (E.regcomp tok.regex) (E.regerror (E.regcomp tok.regex)))
    else
      match E.regexec tok.regex (string.drop s.pos) with
      | some m => if m.rm_so = 0 then emit string tok m s else ruleLoop E string rest s
      | none => ruleLoop E string rest s

/-- Lines 51-81, one iteration of the outer loop, entered with `*string` non-NUL:
skip whitespace, run the rule loop, and advance by one character when no rule
matched. -/
def iteration (E : RegexLib) (string : CStr) (tokens : List token_t) (s : State) : RuleLoop :=
  match ruleLoop E string tokens { s with pos := skipSpace string s.pos } with
  | .done s1 true => .done s1 true
  | .done s1 false => .done { s1 with pos := s1.pos + 1 } false
  | .aborted a => .aborted a

/-- Lines 49-82, `while (*string) { ... }` with an iteration budget. When the cursor is
past the terminating NUL the test of line 49 reads outside the input; the model records
the read and follows the run no further. -/
def loop (E : RegexLib) (string : CStr) (tokens : List token_t) : Nat → State → Outcome
  | 0, _ => .aborted .outOfFuel
  | fuel + 1, s =>
    if string.length < s.pos then .aborted (.readOutOfBounds s.pos)
    else if s.pos = string.length then .returned s
    else
      match iteration E string tokens s with
      | .done s1 _ => loop E string tokens fuel s1
      | .aborted a => .aborted a

/-- Line 84, `for (;j < nbuf; j++) tokenBuf[j] = NULL;`. -/
def fillNull (s : State) : State :=
  { s with
    j := max s.j s.tokenBuf.length
    tokenBuf := s.tokenBuf.take s.j ++ List.replicate (s.tokenBuf.length - s.j) none }

/-- Lines 48-82: the scan from the start of the input with `j = 0`. The budget
`strlen(string) + nbuf + 1` is never exhausted (`scan_budget`). -/
def scan (E : RegexLib) (string : CStr) (tokens : List token_t)
    (tokenBuf : List (Option CStr)) : Outcome :=
  loop E string tokens (string.length + tokenBuf.length + 1)
    { pos := 0, j := 0, tokenBuf := tokenBuf, out := [] }

/-- The function `matcher(string, tokens, ntoken, tokenBuf, nbuf)` for a non-NULL
`string`: the early return of lines 45-46, then the scan, then the NULL fill. On the
early return nothing has been touched; the state reports `j = 0`. -/
def matcher (E : RegexLib) (string : CStr) (tokens : List token_t)
    (tokenBuf : List (Option CStr)) : Outcome :=
  if string = [] ∨ tokens.length < 1 then
    .returned { pos := 0, j := 0, tokenBuf := tokenBuf, out := [] }
  else
    match scan E string tokens tokenBuf with
    | .returned s => .returned (fillNull s)
    | .aborted a => .aborted a

/-! ## A concrete regex library

An executable `RegexLib` for a fragment of POSIX extended regular expressions, used
to run `matcher` on concrete inputs: a pattern is a non-empty word of ordinary
characters (matched at its leftmost occurrence) or one ordinary character followed
by `*` (which matches the longest run of that character at offset 0, possibly
empty). On these patterns it reports what POSIX `regexec` reports. -/

/-- The characters that are not special in an extended regular expression. -/
def ordinary (c : Char) : Bool :=
  !(['.', '[', '\\', '(', ')', '*', '+', '?', '{', '|', '^', '$'].contains c)

/-- The patterns of the fragment. -/
inductive Pat where
  | word (w : CStr)
  | star (c : Char)
deriving DecidableEq, Repr

/-- Compilation in the fragment: status 8 (`REG_EPAREN`) for unbalanced parentheses,
status 2 (`REG_BADPAT`) for any other pattern outside the fragment. -/
def compilePat (pat : CStr) : Except Nat Pat :=
  if pat.count '(' ≠ pat.count ')' then .error 8
  else if pat ≠ [] ∧ pat.all ordinary = true then .ok (.word pat)
  else
    match pat with
    | [c, d] => if ordinary c = true ∧ d = '*' then .ok (.star c) else .error 2
    | _ => .error 2

/-- Leftmost occurrence of the word `w` in the text, `off` characters having been
passed already. -/
def findWord (w : CStr) : CStr → Nat → Option regmatch_t
  | [], _ => none
  | c :: cs, off =>
    if w.isPrefixOf (c :: cs) = true then some ⟨off, off + w.length⟩
    else findWord w cs (off + 1)

/-- The regex library restricted to the fragment. -/
def fragmentLib : RegexLib where
  regcomp pat :=
    match compilePat pat with
    | .ok _ => 0
    | .error status => status
  regexec pat text :=
    match compilePat pat with
    | .ok (.word w) => findWord w text 0
    | .ok (.star c) => some ⟨0, (text.takeWhile (fun d => d == c)).length⟩
    | .error _ => none
  regerror status :=
    if status = 8 then "Unmatched ( or \\(".toList else "Invalid regular expression".toList

/-! ## Vocabulary for the statements -/

/-- Rule `tok` is tried with the cursor at `pos` and matches there with offsets `m`:
its pattern compiles and the match `regexec` reports starts at offset 0 (line 65). -/
def MatchesAt (E : RegexLib) (string : CStr) (pos : Nat) (tok : token_t)
    (m : regmatch_t) : Prop :=
  E.regcomp tok.regex = 0 ∧ E.regexec tok.regex (string.drop pos) = some m ∧ m.rm_so = 0

/-- Rule `tok` is tried with the cursor at `pos` and does not match there: its pattern
compiles, and `regexec` reports no match or a match that starts after offset 0. -/
def Rejects (E : RegexLib) (string : CStr) (pos : Nat) (tok : token_t) : Prop :=
  E.regcomp tok.regex = 0 ∧
    ∀ m, E.regexec tok.regex (string.drop pos) = some m → m.rm_so ≠ 0

/-- The state after the emission of lines 67-77 for a match of `len` characters of
rule `tok` found with the cursor at `p`. -/
def afterEmit (string : CStr) (tok : token_t) (p len : Nat) (s : State) : State :=
  { pos := p + len
    j := s.j + 1
    tokenBuf := s.tokenBuf.set s.j (some ((string.drop p).take len))
    out := s.out ++ [(string.drop p).take len ++ '\t' :: tok.name ++ ['\n']] }

/-! ## Concrete data for the examples -/

/-- The state in which `matcher` enters its loop on a buffer of three `NULL` entries. -/
def start3 : State := { pos := 0, j := 0, tokenBuf := [none, none, none], out := [] }

/-- Three rules that all match at the start of `abc`, the later ones longer. -/
def grammarABC : List token_t :=
  [⟨"a".toList, "A".toList⟩, ⟨"ab".toList, "AB".toList⟩, ⟨"abc".toList, "ABC".toList⟩]

/-- A rule that does not occur in `abc`, then a short rule, then a longer one. -/
def grammarXAB : List token_t :=
  [⟨"x".toList, "X".toList⟩, ⟨"a".toList, "A".toList⟩, ⟨"ab".toList, "AB".toList⟩]

/-- One rule, whose match in `ab` starts at offset 1. -/
def grammarB : List token_t := [⟨"b".toList, "B".toList⟩]

/-- The state in which `matcher` enters its loop on a buffer of two `NULL` entries. -/
def start2 : State := { pos := 0, j := 0, tokenBuf := [none, none], out := [] }

/-- A rule that matches nowhere in the examples, then the rule `ab`. -/
def grammarXAb : List token_t :=
  [⟨"x".toList, "X".toList⟩, ⟨"ab".toList, "AB".toList⟩]

/-- One rule, `a*`, whose pattern matches the empty string. -/
def grammarStar : List token_t := [⟨"a*".toList, "As".toList⟩]

/-- The rule `a`, then a rule whose pattern `(` does not compile. -/
def grammarAParen : List token_t :=
  [⟨"a".toList, "A".toList⟩, ⟨"(".toList, "P".toList⟩]

/-- The rules `a` and `b`. -/
def grammarAB : List token_t :=
  [⟨"a".toList, "A".toList⟩, ⟨"b".toList, "B".toList⟩]

/-- A rule that matches nowhere in the examples, then a rule whose pattern `(` does not
compile, then the rule `a`. -/
def grammarXParenA : List token_t :=
  [⟨"x".toList, "X".toList⟩, ⟨"(".toList, "P".toList⟩, ⟨"a".toList, "A".toList⟩]

/-- The rules `ab` and `c`. -/
def grammarAbC : List token_t :=
  [⟨"ab".toList, "AB".toList⟩, ⟨"c".toList, "C".toList⟩]

/-! ## The helpers `freeTokens` and `listEquals` -/

/-- Lines 91-92, `for (int i = 0; i < n && toks[i]; i++) free(toks[i]);`, on the entries
from index `i` on: the calls of `free`, each as the index and the string released. -/
def freeLoop : List (Option CStr) → Nat → Nat → List (Nat × CStr)
  | some t :: rest, i, n => if i < n then (i, t) :: freeLoop rest (i + 1) n else []
  | none :: _, _, _ => []
  | [], _, _ => []

/-- The function `freeTokens(toks, n)` (lines 90-93), for `n` at most the size of `toks`. -/
def freeTokens (toks : List (Option CStr)) (n : Nat) : List (Nat × CStr) :=
  freeLoop toks 0 n

/-- The function `listEquals(a, b, na, nb)` (lines 126-135), `na` and `nb` being the
lengths of the lists: `some 1` or `some 0` for the value returned, `none` when
`strcmp` is handed a `NULL` entry. -/
def listEquals : List (Option CStr) → List (Option CStr) → Option Nat
  | [], _ => some 1
  | _ :: _, [] => some 1
  | x :: a, y :: b =>
    match x, y with
    | some u, some v => if u ≠ v then some 0 else listEquals a b
    | _, _ => none

/-! ## Vocabulary for the runs -/

/-- One emission of the scan: the cursor at which the rule was tried, the rule, and the
offsets of its match. -/
abbrev Emission := Nat × token_t × regmatch_t

/-- The text of an emission, `input[p, p + rm_eo)`. -/
def Emission.text (string : CStr) (e : Emission) : CStr :=
  (string.drop e.1).take e.2.2.rm_eo

/-- The line printed for an emission: the text, a TAB, the name of the rule, a newline. -/
def Emission.line (string : CStr) (e : Emission) : CStr :=
  Emission.text string e ++ '\t' :: e.2.1.name ++ ['\n']

/-- The state `s` is what the emissions `tr` produce: the first `j` entries of the
buffer are their texts, the output is their lines, and each of them is a rule of the
grammar that matched anchored at a cursor reached by a whitespace skip. -/
def Traced (E : RegexLib) (string : CStr) (tokens : List token_t) (s : State)
    (tr : List Emission) : Prop :=
  tr.length = s.j ∧
  s.tokenBuf.take s.j = tr.map (fun e => some (Emission.text string e)) ∧
  s.out = tr.map (Emission.line string) ∧
  ∀ e ∈ tr, e.2.1 ∈ tokens ∧ MatchesAt E string e.1 e.2.1 e.2.2 ∧
    ∃ q, q < string.length ∧ e.1 = skipSpace string q

/-- The abort an abort becomes when the input is preceded by `d` more characters: only
the position of an out-of-bounds read changes. -/
def shiftAbort (d : Nat) : Abort → Abort
  | .readOutOfBounds pos => .readOutOfBounds (pos + d)
  | a => a

/-- Two states that differ by `d` in the cursor and agree on `j`, on the output, on the
size of the buffer and on its first `j` entries. -/
def Sim (d : Nat) (s1 s2 : State) : Prop :=
  s2.pos = s1.pos + d ∧ s2.j = s1.j ∧ s2.out = s1.out ∧
  s2.tokenBuf.length = s1.tokenBuf.length ∧ s2.tokenBuf.take s2.j = s1.tokenBuf.take s1.j

/-- The results of the rule loop on two inputs correspond: both end with the same
`hasMatched` in corresponding states, or both abort in the same way. -/
def SimRule (d : Nat) : RuleLoop → RuleLoop → Prop
  | .done s1 b1, .done s2 b2 => b1 = b2 ∧ Sim d s1 s2
  | .aborted a1, .aborted a2 => a2 = shiftAbort d a1
  | _, _ => False

/-- The outcomes of two runs correspond: both return, in corresponding states, or both
abort in the same way. -/
def SimOutcome (d : Nat) : Outcome → Outcome → Prop
  | .returned s1, .returned s2 => Sim d s1 s2
  | .aborted a1, .aborted a2 => a2 = shiftAbort d a1
  | _, _ => False

/-- The state after `n` complete iterations of the outer loop started in `s`, when the
run gets that far: each of them is entered with the cursor on a character of the input
(the test of line 49 succeeds) and does not abort. -/
def afterIterations (E : RegexLib) (string : CStr) (tokens : List token_t) :
    Nat → State → Option State
  | 0, s => some s
  | n + 1, s =>
    if s.pos < string.length then
      match iteration E string tokens s with
      | .done s1 _ => afterIterations E string tokens n s1
      | .aborted _ => none
    else none

/-- The rules `a` only. -/
def grammarA : List token_t := [⟨"a".toList, "A".toList⟩]

/-- The test input of line 148, which ends in five blanks. -/
def testInput3 : CStr := "array[xyz ] += pi 3.14159e-10     ".toList

/-! ## The rule loop -/

theorem emit_of_anchored (string : CStr) (tok : token_t) (m : regmatch_t) (s : State)
    (hso : m.rm_so = 0) (hj : s.j < s.tokenBuf.length) :
    emit string tok m s = .done (afterEmit string tok s.pos m.rm_eo s) true := by
  simp [emit, hj, afterEmit, substr, diagLine, hso]

theorem ruleLoop_reject (E : RegexLib) (string : CStr) (tok : token_t)
    (rest : List token_t) (s : State) (h : Rejects E string s.pos tok) :
    ruleLoop E string (tok :: rest) s = ruleLoop E string rest s := by
  obtain ⟨hc, hm⟩ := h
  simp only [ruleLoop, hc, ne_eq, not_true_eq_false, if_false]
  cases hx : E.regexec tok.regex (string.drop s.pos) with
  | none => rfl
  | some m => simp [hm m hx]

theorem ruleLoop_match (E : RegexLib) (string : CStr) (tok : token_t)
    (rest : List token_t) (s : State) (m : regmatch_t)
    (h : MatchesAt E string s.pos tok m) :
    ruleLoop E string (tok :: rest) s = emit string tok m s := by
  obtain ⟨hc, hx, hso⟩ := h
  simp [ruleLoop, hc, hx, hso]

theorem ruleLoop_rejects (E : RegexLib) (string : CStr) (pre rest : List token_t)
    (s : State) (h : ∀ t ∈ pre, Rejects E string s.pos t) :
    ruleLoop E string (pre ++ rest) s = ruleLoop E string rest s := by
  induction pre with
  | nil => rfl
  | cons t pre ih =>
    rw [List.cons_append, ruleLoop_reject E string t _ s (h t (List.mem_cons_self t pre))]
    exact ih (fun u hu => h u (List.mem_cons_of_mem t hu))

theorem ruleLoop_first (E : RegexLib) (string : CStr) (pre : List token_t)
    (tok : token_t) (post : List token_t) (s : State) (m : regmatch_t)
    (hpre : ∀ t ∈ pre, Rejects E string s.pos t) (hm : MatchesAt E string s.pos tok m) :
    ruleLoop E string (pre ++ tok :: post) s = emit string tok m s := by
  rw [ruleLoop_rejects E string pre _ s hpre, ruleLoop_match E string tok post s m hm]

theorem ruleLoop_none (E : RegexLib) (string : CStr) (tokens : List token_t)
    (s : State) (h : ∀ t ∈ tokens, Rejects E string s.pos t) :
    ruleLoop E string tokens s = .done s false := by
  have := ruleLoop_rejects E string tokens [] s h
  simpa [ruleLoop] using this

/-- What the rule loop can have done when it ends without aborting: nothing
(`hasMatched = 0`, every rule was tried and rejected), or the emission for the
first rule that matches anchored at the cursor. -/
theorem ruleLoop_done (E : RegexLib) (string : CStr) (tokens : List token_t)
    (s s1 : State) (b : Bool) (h : ruleLoop E string tokens s = .done s1 b) :
    (b = false ∧ s1 = s ∧ ∀ t ∈ tokens, Rejects E string s.pos t) ∨
    (b = true ∧ ∃ pre tok post m, tokens = pre ++ tok :: post ∧
      (∀ t ∈ pre, Rejects E string s.pos t) ∧ MatchesAt E string s.pos tok m ∧
      s.j < s.tokenBuf.length ∧ s1 = afterEmit string tok s.pos m.rm_eo s) := by
  induction tokens with
  | nil =>
    simp only [ruleLoop, RuleLoop.done.injEq] at h
    exact Or.inl ⟨h.2.symm, h.1.symm, by simp⟩
  | cons tok rest ih =>
    by_cases hc : E.regcomp tok.regex = 0
    · cases hx : E.regexec tok.regex (string.drop s.pos) with
      | none =>
        have hr : Rejects E string s.pos tok := ⟨hc, by simp [hx]⟩
        rw [ruleLoop_reject E string tok rest s hr] at h
        rcases ih h with ⟨hb, hs, hall⟩ | ⟨hb, pre, t, post, m, ht, hpre, hm, hj, hs⟩
        · exact Or.inl ⟨hb, hs, by
            intro u hu
            rcases List.mem_cons.mp hu with rfl | hu
            · exact hr
            · exact hall u hu⟩
        · refine Or.inr ⟨hb, tok :: pre, t, post, m, by simp [ht], ?_, hm, hj, hs⟩
          intro u hu
          rcases List.mem_cons.mp hu with rfl | hu
          · exact hr
          · exact hpre u hu
      | some m =>
        by_cases hso : m.rm_so = 0
        · have hm : MatchesAt E string s.pos tok m := ⟨hc, hx, hso⟩
          rw [ruleLoop_match E string tok rest s m hm] at h
          by_cases hj : s.j < s.tokenBuf.length
          · rw [emit_of_anchored string tok m s hso hj] at h
            simp only [RuleLoop.done.injEq] at h
            exact Or.inr ⟨h.2.symm, [], tok, rest, m, rfl, by simp, hm, hj, h.1.symm⟩
          · simp [emit, hj] at h
        · have hr : Rejects E string s.pos tok := ⟨hc, by
            intro m2 hm2
            rw [hx] at hm2
            cases hm2
            exact hso⟩
          rw [ruleLoop_reject E string tok rest s hr] at h
          rcases ih h with ⟨hb, hs, hall⟩ | ⟨hb, pre, t, post, m2, ht, hpre, hm, hj, hs⟩
          · exact Or.inl ⟨hb, hs, by
              intro u hu
              rcases List.mem_cons.mp hu with rfl | hu
              · exact hr
              · exact hall u hu⟩
          · refine Or.inr ⟨hb, tok :: pre, t, post, m2, by simp [ht], ?_, hm, hj, hs⟩
            intro u hu
            rcases List.mem_cons.mp hu with rfl | hu
            · exact hr
            · exact hpre u hu
    · simp [ruleLoop, hc] at h

/-! ## One iteration and the outer loop -/

theorem iteration_match (E : RegexLib) (string : CStr) (pre : List token_t)
    (tok : token_t) (post : List token_t) (s : State) (m : regmatch_t)
    (hpre : ∀ t ∈ pre, Rejects E string (skipSpace string s.pos) t)
    (hm : MatchesAt E string (skipSpace string s.pos) tok m)
    (hj : s.j < s.tokenBuf.length) :
    iteration E string (pre ++ tok :: post) s =
      .done (afterEmit string tok (skipSpace string s.pos) m.rm_eo s) true := by
  have h := ruleLoop_first E string pre tok post { s with pos := skipSpace string s.pos } m
    hpre hm
  rw [emit_of_anchored string tok m { s with pos := skipSpace string s.pos } hm.2.2 hj] at h
  simp only [iteration, h]
  rfl

theorem iteration_none (E : RegexLib) (string : CStr) (tokens : List token_t) (s : State)
    (h : ∀ t ∈ tokens, Rejects E string (skipSpace string s.pos) t) :
    iteration E string tokens s =
      .done { s with pos := skipSpace string s.pos + 1 } false := by
  have h1 := ruleLoop_none E string tokens { s with pos := skipSpace string s.pos } h
  simp only [iteration, h1]

/-- What one iteration can have done when it does not abort. -/
theorem iteration_done (E : RegexLib) (string : CStr) (tokens : List token_t)
    (s s1 : State) (b : Bool) (h : iteration E string tokens s = .done s1 b) :
    (b = false ∧ s1 = { s with pos := skipSpace string s.pos + 1 } ∧
      ∀ t ∈ tokens, Rejects E string (skipSpace string s.pos) t) ∨
    (b = true ∧ ∃ pre tok post m, tokens = pre ++ tok :: post ∧
      (∀ t ∈ pre, Rejects E string (skipSpace string s.pos) t) ∧
      MatchesAt E string (skipSpace string s.pos) tok m ∧
      s.j < s.tokenBuf.length ∧
      s1 = afterEmit string tok (skipSpace string s.pos) m.rm_eo s) := by
  unfold iteration at h
  cases hr : ruleLoop E string tokens { s with pos := skipSpace string s.pos } with
  | aborted a => simp [hr] at h
  | done s2 b2 =>
    rw [hr] at h
    rcases ruleLoop_done E string tokens _ s2 b2 hr with
      ⟨hb, hs, hall⟩ | ⟨hb, pre, tok, post, m, ht, hpre, hm, hj, hs⟩
    · subst hb
      simp only [RuleLoop.done.injEq] at h
      refine Or.inl ⟨h.2.symm, ?_, hall⟩
      rw [← h.1, hs]
    · subst hb
      simp only [RuleLoop.done.injEq] at h
      refine Or.inr ⟨h.2.symm, pre, tok, post, m, ht, hpre, hm, hj, ?_⟩
      rw [← h.1, hs]
      rfl

theorem loop_step (E : RegexLib) (string : CStr) (tokens : List token_t) (fuel : Nat)
    (s s1 : State) (b : Bool) (hpos : s.pos < string.length)
    (h : iteration E string tokens s = .done s1 b) :
    loop E string tokens (fuel + 1) s = loop E string tokens fuel s1 := by
  have h1 : ¬ string.length < s.pos := by omega
  have h2 : ¬ s.pos = string.length := by omega
  simp only [loop, h1, h2, if_false, h]

theorem loop_abort (E : RegexLib) (string : CStr) (tokens : List token_t) (fuel : Nat)
    (s : State) (a : Abort) (hpos : s.pos < string.length)
    (h : iteration E string tokens s = .aborted a) :
    loop E string tokens (fuel + 1) s = .aborted a := by
  have h1 : ¬ string.length < s.pos := by omega
  have h2 : ¬ s.pos = string.length := by omega
  simp only [loop, h1, h2, if_false, h]

theorem loop_end (E : RegexLib) (string : CStr) (tokens : List token_t) (fuel : Nat)
    (s : State) (hpos : s.pos = string.length) :
    loop E string tokens (fuel + 1) s = .returned s := by
  simp [loop, hpos]

theorem loop_past (E : RegexLib) (string : CStr) (tokens : List token_t) (fuel : Nat)
    (s : State) (hpos : string.length < s.pos) :
    loop E string tokens (fuel + 1) s = .aborted (.readOutOfBounds s.pos) := by
  simp [loop, hpos]

/-- Invariant rule for the outer loop: a property of the state that every
non-aborting iteration preserves holds of the state the loop returns, and the loop
returns with the cursor on the terminating NUL. -/
theorem loop_invariant (E : RegexLib) (string : CStr) (tokens : List token_t)
    (P : State → Prop)
    (hstep : ∀ s s1 b, s.pos < string.length → P s →
      iteration E string tokens s = .done s1 b → P s1) :
    ∀ fuel s sf, P s → loop E string tokens fuel s = .returned sf →
      P sf ∧ sf.pos = string.length := by
  intro fuel
  induction fuel with
  | zero => intro s sf _ h; simp [loop] at h
  | succ fuel ih =>
    intro s sf hP h
    rcases Nat.lt_trichotomy s.pos string.length with hlt | heq | hgt
    · cases hit : iteration E string tokens s with
      | aborted a => rw [loop_abort E string tokens fuel s a hlt hit] at h; cases h
      | done s1 b =>
        rw [loop_step E string tokens fuel s s1 b hlt hit] at h
        exact ih s1 sf (hstep s s1 b hlt hP hit) h
    · rw [loop_end E string tokens fuel s heq] at h
      cases h
      exact ⟨hP, heq⟩
    · rw [loop_past E string tokens fuel s hgt] at h; cases h

theorem skipSpace_ge (string : CStr) (pos : Nat) : pos ≤ skipSpace string pos := by
  simp [skipSpace]

theorem skipSpace_le (string : CStr) (pos : Nat) (h : pos ≤ string.length) :
    skipSpace string pos ≤ string.length := by
  have h1 : ((string.drop pos).takeWhile isspace).length ≤ (string.drop pos).length :=
    (List.takeWhile_sublist isspace).length_le
  simp only [List.length_drop] at h1
  simp only [skipSpace]
  omega

theorem rejects_of_none (E : RegexLib) (string : CStr) (pos : Nat) (tok : token_t)
    (hc : E.regcomp tok.regex = 0) (hx : E.regexec tok.regex (string.drop pos) = none) :
    Rejects E string pos tok :=
  ⟨hc, by simp [hx]⟩

theorem rejects_of_later (E : RegexLib) (string : CStr) (pos : Nat) (tok : token_t)
    (m : regmatch_t) (hc : E.regcomp tok.regex = 0)
    (hx : E.regexec tok.regex (string.drop pos) = some m) (hso : m.rm_so ≠ 0) :
    Rejects E string pos tok :=
  ⟨hc, by
    intro m2 hm2
    rw [hx] at hm2
    cases hm2
    exact hso⟩

theorem rejects_before (E : RegexLib) (string : CStr) (pos : Nat) (tokens : List token_t)
    (i : Nat) (h : ∀ k t, k < i → tokens[k]? = some t → Rejects E string pos t) :
    ∀ t ∈ tokens.take i, Rejects E string pos t := by
  intro t ht
  obtain ⟨k, hk, hkt⟩ := List.mem_iff_getElem.mp ht
  have hki : k < i := by
    have := hk
    simp only [List.length_take] at this
    omega
  refine h k t hki ?_
  rw [List.getElem_take] at hkt
  rw [← hkt]
  exact List.getElem?_eq_getElem _

theorem split_at_index (tokens : List token_t) (i : Nat) (ti : token_t)
    (hi : tokens[i]? = some ti) :
    tokens = tokens.take i ++ ti :: tokens.drop (i + 1) := by
  obtain ⟨hlt, hget⟩ := List.getElem?_eq_some_iff.mp hi
  rw [← hget, List.getElem_cons_drop tokens i hlt, List.take_append_drop]

/-! ## C1: first match wins -/

/-- C1: first match wins. When the rule at index `i` is the first rule that matches
anchored at the cursor (every rule of lower index is tried and rejected) and a rule at
index `j > i` matches there too, the rule loop ends with the emission for rule `i`: its
text, its length and its name, whatever the length of the match of rule `j`; the
rules after index `i` are not tried, since replacing them by any other rules gives
the same result. -/
theorem first_match_wins (E : RegexLib) (string : CStr) (tokens : List token_t)
    (s : State) (i j : Nat) (ti tj : token_t) (mi mj : regmatch_t)
    (_hij : i < j) (hi : tokens[i]? = some ti) (_hj : tokens[j]? = some tj)
    (hmi : MatchesAt E string s.pos ti mi) (_hmj : MatchesAt E string s.pos tj mj)
    (hfirst : ∀ k t, k < i → tokens[k]? = some t → Rejects E string s.pos t) :
    ruleLoop E string tokens s = emit string ti mi s ∧
    (∀ later, ruleLoop E string (tokens.take i ++ ti :: later) s = emit string ti mi s) ∧
    (s.j < s.tokenBuf.length →
      emit string ti mi s = .done (afterEmit string ti s.pos mi.rm_eo s) true) := by
  have hpre := rejects_before E string s.pos tokens i hfirst
  refine ⟨?_, ?_, ?_⟩
  · have hsplit := split_at_index tokens i ti hi
    calc ruleLoop E string tokens s
        = ruleLoop E string (tokens.take i ++ ti :: tokens.drop (i + 1)) s := by
          rw [← hsplit]
      _ = emit string ti mi s := ruleLoop_first E string _ ti _ s mi hpre hmi
  · intro later
    exact ruleLoop_first E string _ ti later s mi hpre hmi
  · intro hlt
    exact emit_of_anchored string ti mi s hmi.2.2 hlt

/-- C1 on the rules `x`, `a`, `ab` and the input `abc`: rule 1 is the first to match
and rule 2 matches more, and the token emitted is `a` with the name `A`. -/
theorem first_match_wins_witness :
    ruleLoop fragmentLib "abc".toList grammarXAB start3 =
      emit "abc".toList ⟨"a".toList, "A".toList⟩ ⟨0, 1⟩ start3 ∧
    (∀ later, ruleLoop fragmentLib "abc".toList
        (grammarXAB.take 1 ++ ⟨"a".toList, "A".toList⟩ :: later) start3 =
      emit "abc".toList ⟨"a".toList, "A".toList⟩ ⟨0, 1⟩ start3) ∧
    (start3.j < start3.tokenBuf.length →
      emit "abc".toList ⟨"a".toList, "A".toList⟩ ⟨0, 1⟩ start3 =
        .done (afterEmit "abc".toList ⟨"a".toList, "A".toList⟩ start3.pos 1 start3) true) :=
  first_match_wins fragmentLib "abc".toList grammarXAB start3 1 2
    ⟨"a".toList, "A".toList⟩ ⟨"ab".toList, "AB".toList⟩ ⟨0, 1⟩ ⟨0, 2⟩
    (by decide) (by decide) (by decide)
    ⟨by decide, by decide, rfl⟩ ⟨by decide, by decide, rfl⟩
    (by
      intro k t hk hkt
      have hk0 : k = 0 := by omega
      subst hk0
      have ht : t = ⟨"x".toList, "X".toList⟩ := by
        have h0 : grammarXAB[0]? = some ⟨"x".toList, "X".toList⟩ := by decide
        rw [h0] at hkt
        cases hkt
        rfl
      subst ht
      exact rejects_of_none fragmentLib _ _ _ (by decide) (by decide))

/-! ## C2: anchored matching -/

/-- C2: a rule whose pattern compiles and whose match starts after offset 0 of the
remaining input is not selected (the rule loop goes on with the rules after it), and
whenever the rule loop ends with `hasMatched` set, the rule it selected has a
`regexec` match with `rm_so = 0` and the token stored at index `j` is the text that
starts exactly at the cursor. -/
theorem anchored_matching (E : RegexLib) (string : CStr) :
    (∀ (tok : token_t) (rest : List token_t) (s : State) (m : regmatch_t),
      E.regcomp tok.regex = 0 → E.regexec tok.regex (string.drop s.pos) = some m →
      m.rm_so ≠ 0 → ruleLoop E string (tok :: rest) s = ruleLoop E string rest s) ∧
    (∀ (tokens : List token_t) (s s1 : State),
      ruleLoop E string tokens s = .done s1 true →
      ∃ tok ∈ tokens, ∃ m, E.regexec tok.regex (string.drop s.pos) = some m ∧
        m.rm_so = 0 ∧ s1 = afterEmit string tok s.pos m.rm_eo s ∧
        s1.tokenBuf[s.j]? = some (some ((string.drop s.pos).take m.rm_eo))) := by
  refine ⟨?_, ?_⟩
  · intro tok rest s m hc hx hso
    exact ruleLoop_reject E string tok rest s (rejects_of_later E string s.pos tok m hc hx hso)
  · intro tokens s s1 h
    rcases ruleLoop_done E string tokens s s1 true h with
      ⟨hb, _, _⟩ | ⟨_, pre, tok, post, m, ht, _, hm, hj, hs⟩
    · cases hb
    · refine ⟨tok, by simp [ht], m, hm.2.1, hm.2.2, hs, ?_⟩
      rw [hs]
      simp [afterEmit, hj]

/-- C2 on the input `ab`: the rule `b`, whose match starts at offset 1, is passed
over with the cursor at 0, and the rule loop on `x`, `a`, `ab` selects a rule whose
match starts at offset 0. -/
theorem anchored_matching_witness :
    ruleLoop fragmentLib "ab".toList (⟨"b".toList, "B".toList⟩ :: grammarXAB) start3 =
      ruleLoop fragmentLib "ab".toList grammarXAB start3 ∧
    ∃ tok ∈ grammarXAB, ∃ m,
      fragmentLib.regexec tok.regex ("ab".toList.drop start3.pos) = some m ∧
      m.rm_so = 0 ∧
      (⟨1, 1, [some "a".toList, none, none], ["a\tA\n".toList]⟩ : State) =
        afterEmit "ab".toList tok start3.pos m.rm_eo start3 ∧
      (⟨1, 1, [some "a".toList, none, none], ["a\tA\n".toList]⟩ : State).tokenBuf[start3.j]? =
        some (some (("ab".toList.drop start3.pos).take m.rm_eo)) :=
  ⟨(anchored_matching fragmentLib "ab".toList).1 ⟨"b".toList, "B".toList⟩ grammarXAB start3
      ⟨1, 2⟩ (by decide) (by decide) (by decide),
   (anchored_matching fragmentLib "ab".toList).2 grammarXAB start3
      ⟨1, 1, [some "a".toList, none, none], ["a\tA\n".toList]⟩ (by decide)⟩

/-! ## Frame and budget of the outer loop -/

theorem afterEmit_length (string : CStr) (tok : token_t) (p len : Nat) (s : State) :
    (afterEmit string tok p len s).tokenBuf.length = s.tokenBuf.length := by
  simp [afterEmit]

/-- The outer loop only appends: when it returns, the buffer has the length it had,
`j` has not decreased and is at most `nbuf`, and the entries below the `j` it
started with are untouched. -/
theorem loop_frame (E : RegexLib) (string : CStr) (tokens : List token_t) (fuel : Nat)
    (s sf : State) (hj : s.j ≤ s.tokenBuf.length)
    (h : loop E string tokens fuel s = .returned sf) :
    sf.tokenBuf.length = s.tokenBuf.length ∧ s.j ≤ sf.j ∧ sf.j ≤ sf.tokenBuf.length ∧
      (∀ i, i < s.j → sf.tokenBuf[i]? = s.tokenBuf[i]?) ∧ sf.pos = string.length := by
  have key := loop_invariant E string tokens
    (fun u => u.tokenBuf.length = s.tokenBuf.length ∧ s.j ≤ u.j ∧ u.j ≤ u.tokenBuf.length ∧
      ∀ i, i < s.j → u.tokenBuf[i]? = s.tokenBuf[i]?)
    (by
      intro u u1 b _ hP hit
      obtain ⟨hlen, hle, hcap, hfr⟩ := hP
      rcases iteration_done E string tokens u u1 b hit with
        ⟨_, hu, _⟩ | ⟨_, pre, tok, post, m, _, _, _, hlt, hu⟩
      · subst hu
        exact ⟨hlen, hle, hcap, hfr⟩
      · subst hu
        refine ⟨by simp [afterEmit, hlen], by simp only [afterEmit]; omega,
          by simp only [afterEmit, List.length_set]; omega, ?_⟩
        intro i hi
        have hne : u.j ≠ i := by omega
        simp only [afterEmit]
        rw [List.getElem?_set_ne hne]
        exact hfr i hi)
    fuel s sf ⟨rfl, le_refl _, hj, fun _ _ => rfl⟩ h
  exact ⟨key.1.1, key.1.2.1, key.1.2.2.1, key.1.2.2.2, key.2⟩

/-- More budget does not change a run that did not exhaust its budget. -/
theorem loop_fuel_add (E : RegexLib) (string : CStr) (tokens : List token_t) (k : Nat) :
    ∀ fuel s, loop E string tokens fuel s ≠ .aborted .outOfFuel →
      loop E string tokens (fuel + k) s = loop E string tokens fuel s := by
  intro fuel
  induction fuel with
  | zero => intro s h; simp [loop] at h
  | succ fuel ih =>
    intro s h
    rw [show fuel + 1 + k = (fuel + k) + 1 by omega]
    rcases Nat.lt_trichotomy s.pos string.length with hlt | heq | hgt
    · cases hit : iteration E string tokens s with
      | aborted a =>
        rw [loop_abort E string tokens _ s a hlt hit, loop_abort E string tokens _ s a hlt hit]
      | done s1 b =>
        rw [loop_step E string tokens _ s s1 b hlt hit] at h ⊢
        rw [loop_step E string tokens _ s s1 b hlt hit]
        exact ih s1 h
    · rw [loop_end E string tokens _ s heq, loop_end E string tokens _ s heq]
    · rw [loop_past E string tokens _ s hgt, loop_past E string tokens _ s hgt]

/-- The budget is sufficient: every iteration that does not end the run moves the
cursor forward or uses one more entry of the buffer. -/
theorem loop_budget (E : RegexLib) (string : CStr) (tokens : List token_t) :
    ∀ fuel s, (string.length - s.pos) + (s.tokenBuf.length - s.j) < fuel →
      loop E string tokens fuel s ≠ .aborted .outOfFuel := by
  intro fuel
  induction fuel with
  | zero => intro s h; omega
  | succ fuel ih =>
    intro s h
    rcases Nat.lt_trichotomy s.pos string.length with hlt | heq | hgt
    · cases hit : iteration E string tokens s with
      | aborted a =>
        rw [loop_abort E string tokens _ s a hlt hit]
        intro hc
        cases hc
        unfold iteration at hit
        cases hr : ruleLoop E string tokens { s with pos := skipSpace string s.pos } with
        | done s2 b2 => cases b2 <;> simp [hr] at hit
        | aborted a2 =>
          have haux : ∀ (toks : List token_t) (u : State),
              ruleLoop E string toks u ≠ .aborted .outOfFuel := by
            intro toks u
            induction toks with
            | nil => simp [ruleLoop]
            | cons t rest ih2 =>
              simp only [ruleLoop]
              split
              · simp
              · split
                · split
                  · unfold emit
                    split <;> simp
                  · exact ih2
                · exact ih2
          rw [hr] at hit
          simp only [RuleLoop.aborted.injEq] at hit
          subst hit
          exact haux _ _ hr
      | done s1 b =>
        rw [loop_step E string tokens _ s s1 b hlt hit]
        apply ih
        have hge := skipSpace_ge string s.pos
        rcases iteration_done E string tokens s s1 b hit with
          ⟨_, hu, _⟩ | ⟨_, pre, tok, post, m, _, _, _, hj, hu⟩
        · subst hu
          simp only
          omega
        · subst hu
          simp only [afterEmit, List.length_set]
          omega
    · rw [loop_end E string tokens _ s heq]
      simp
    · rw [loop_past E string tokens _ s hgt]
      simp

/-- The budget `scan` gives the loop is never exhausted. -/
theorem scan_budget (E : RegexLib) (string : CStr) (tokens : List token_t)
    (tokenBuf : List (Option CStr)) :
    scan E string tokens tokenBuf ≠ .aborted .outOfFuel := by
  unfold scan
  apply loop_budget
  simp

/-! ## C3: a match appends the substring and advances by its length -/

/-- C3: when, in an iteration of the outer loop, the first rule to match anchored at
the cursor `p` (the position after the whitespace skip) has a match of `len = rm_eo`
characters inside the input, and index `j` is inside the buffer, the iteration stores
exactly `input[p, p+len)` at `tokenBuf[j]`, a string of length `len`, increments `j`,
and leaves the cursor at `p + len`; the scan goes on from that state, and when it
returns, entry `j` of the buffer is still that substring, the entries below `j` are
as they were, and more than `j` tokens have been produced. -/
theorem match_appends_and_advances (E : RegexLib) (string : CStr)
    (pre : List token_t) (tok : token_t) (post : List token_t) (s : State)
    (m : regmatch_t) (fuel : Nat)
    (hpos : s.pos < string.length)
    (hpre : ∀ t ∈ pre, Rejects E string (skipSpace string s.pos) t)
    (hm : MatchesAt E string (skipSpace string s.pos) tok m)
    (hin : skipSpace string s.pos + m.rm_eo ≤ string.length)
    (hj : s.j < s.tokenBuf.length) :
    iteration E string (pre ++ tok :: post) s =
      .done
        { pos := skipSpace string s.pos + m.rm_eo
          j := s.j + 1
          tokenBuf :=
            s.tokenBuf.set s.j (some ((string.drop (skipSpace string s.pos)).take m.rm_eo))
          out := s.out ++
            [(string.drop (skipSpace string s.pos)).take m.rm_eo ++ '\t' :: tok.name ++ ['\n']] }
        true ∧
    ((string.drop (skipSpace string s.pos)).take m.rm_eo).length = m.rm_eo ∧
    loop E string (pre ++ tok :: post) (fuel + 1) s =
      loop E string (pre ++ tok :: post) fuel
        (afterEmit string tok (skipSpace string s.pos) m.rm_eo s) ∧
    (∀ sf, loop E string (pre ++ tok :: post) (fuel + 1) s = .returned sf →
      sf.tokenBuf[s.j]? = some (some ((string.drop (skipSpace string s.pos)).take m.rm_eo)) ∧
      s.j < sf.j ∧ ∀ i, i < s.j → sf.tokenBuf[i]? = s.tokenBuf[i]?) := by
  have hit := iteration_match E string pre tok post s m hpre hm hj
  have hstep := loop_step E string (pre ++ tok :: post) fuel s _ true hpos hit
  refine ⟨hit, ?_, hstep, ?_⟩
  · rw [List.length_take, List.length_drop]
    omega
  · intro sf hsf
    rw [hstep] at hsf
    have hfr := loop_frame E string (pre ++ tok :: post) fuel _ sf
      (by simp only [afterEmit, List.length_set]; omega) hsf
    obtain ⟨_, hle, _, hkeep, _⟩ := hfr
    simp only [afterEmit] at hle hkeep
    refine ⟨?_, by omega, ?_⟩
    · rw [hkeep s.j (by omega)]
      simp [hj]
    · intro i hi
      rw [hkeep i (by omega)]
      exact List.getElem?_set_ne (by omega)

/-- C3 on the input ` ab` with the rules `x`, `ab`: the iteration entered at
position 0 skips the blank, stores `ab` at index 0 and leaves the cursor at 3. -/
theorem match_appends_and_advances_witness :
    iteration fragmentLib " ab".toList grammarXAb start2 =
      .done { pos := 3, j := 1, tokenBuf := [some "ab".toList, none],
              out := ["ab\tAB\n".toList] } true ∧
    loop fragmentLib " ab".toList grammarXAb 4 start2 =
      .returned { pos := 3, j := 1, tokenBuf := [some "ab".toList, none],
                  out := ["ab\tAB\n".toList] } :=
  have h := match_appends_and_advances fragmentLib " ab".toList
    [⟨"x".toList, "X".toList⟩] ⟨"ab".toList, "AB".toList⟩ [] start2 ⟨0, 2⟩ 3
    (by decide)
    (by
      intro t ht
      rw [List.mem_singleton] at ht
      subst ht
      exact rejects_of_none fragmentLib _ _ _ (by decide) (by decide))
    ⟨by decide, by decide, rfl⟩ (by decide) (by decide)
  ⟨h.1, h.2.2.1.trans (by decide)⟩

/-! ## C4: no match drops one character -/

/-- C4: when, in an iteration of the outer loop, every rule of the grammar is tried
at the cursor `p` (the position after the whitespace skip) and rejected, the iteration
leaves `j`, the buffer and the output as they were and the cursor at `p + 1`; the rest
of the scan is the scan from that state. -/
theorem no_match_drops_one_character (E : RegexLib) (string : CStr)
    (tokens : List token_t) (s : State) (fuel : Nat)
    (hpos : s.pos < string.length)
    (hno : ∀ t ∈ tokens, Rejects E string (skipSpace string s.pos) t) :
    iteration E string tokens s =
      .done { pos := skipSpace string s.pos + 1, j := s.j, tokenBuf := s.tokenBuf,
              out := s.out } false ∧
    loop E string tokens (fuel + 1) s =
      loop E string tokens fuel
        { pos := skipSpace string s.pos + 1, j := s.j, tokenBuf := s.tokenBuf,
          out := s.out } := by
  have hit := iteration_none E string tokens s hno
  exact ⟨hit, loop_step E string tokens fuel s _ false hpos hit⟩

/-- C4 on the input `?ab` with the rules `x`, `ab`: no rule matches at `?`, which is
dropped without a token or a line. -/
theorem no_match_drops_one_character_witness :
    iteration fragmentLib "?ab".toList grammarXAb start2 =
      .done { pos := 1, j := 0, tokenBuf := [none, none], out := [] } false ∧
    loop fragmentLib "?ab".toList grammarXAb 4 start2 =
      loop fragmentLib "?ab".toList grammarXAb 3
        { pos := 1, j := 0, tokenBuf := [none, none], out := [] } :=
  no_match_drops_one_character fragmentLib "?ab".toList grammarXAb start2 3 (by decide)
    (by
      intro t ht
      have h2 : t = ⟨"x".toList, "X".toList⟩ ∨ t = ⟨"ab".toList, "AB".toList⟩ := by
        simpa [grammarXAb] using ht
      rcases h2 with rfl | rfl
      · exact rejects_of_none fragmentLib _ _ _ (by decide) (by decide)
      · exact rejects_of_later fragmentLib _ _ _ ⟨1, 3⟩ (by decide) (by decide) (by decide))

/-! ## C5: progress and termination -/

theorem iteration_overflow (E : RegexLib) (string : CStr) (pre : List token_t)
    (tok : token_t) (post : List token_t) (s : State) (m : regmatch_t)
    (hpre : ∀ t ∈ pre, Rejects E string (skipSpace string s.pos) t)
    (hm : MatchesAt E string (skipSpace string s.pos) tok m)
    (hj : ¬ s.j < s.tokenBuf.length) :
    iteration E string (pre ++ tok :: post) s = .aborted (.storeOutOfBounds s.j) := by
  have h := ruleLoop_first E string pre tok post { s with pos := skipSpace string s.pos } m
    hpre hm
  have he : emit string tok m { s with pos := skipSpace string s.pos } =
      .aborted (.storeOutOfBounds s.j) := by
    simp only [emit, hj, if_false]
  rw [he] at h
  simp only [iteration, h]

theorem star_rule_never_returns_aux :
    ∀ (n fuel : Nat) (s : State), s.pos = 0 → s.j + n = s.tokenBuf.length → n < fuel →
      loop fragmentLib "b".toList grammarStar fuel s =
        .aborted (.storeOutOfBounds s.tokenBuf.length) := by
  intro n
  induction n with
  | zero =>
    intro fuel s hp hj hf
    obtain ⟨fuel, rfl⟩ : ∃ k, fuel = k + 1 := ⟨fuel - 1, by omega⟩
    have hsk : skipSpace "b".toList s.pos = 0 := by rw [hp]; decide
    have hm : MatchesAt fragmentLib "b".toList (skipSpace "b".toList s.pos)
        ⟨"a*".toList, "As".toList⟩ ⟨0, 0⟩ := by
      rw [hsk]
      exact ⟨by decide, by decide, rfl⟩
    have hit := iteration_overflow fragmentLib "b".toList [] ⟨"a*".toList, "As".toList⟩ [] s
      ⟨0, 0⟩ (fun _ h => absurd h (List.not_mem_nil _)) hm (by omega)
    have hje : s.j = s.tokenBuf.length := by omega
    rw [hje] at hit
    exact loop_abort fragmentLib "b".toList grammarStar fuel s _ (by rw [hp]; decide) hit
  | succ n ih =>
    intro fuel s hp hj hf
    obtain ⟨fuel, rfl⟩ : ∃ k, fuel = k + 1 := ⟨fuel - 1, by omega⟩
    have hsk : skipSpace "b".toList s.pos = 0 := by rw [hp]; decide
    have hm : MatchesAt fragmentLib "b".toList (skipSpace "b".toList s.pos)
        ⟨"a*".toList, "As".toList⟩ ⟨0, 0⟩ := by
      rw [hsk]
      exact ⟨by decide, by decide, rfl⟩
    have hit := iteration_match fragmentLib "b".toList [] ⟨"a*".toList, "As".toList⟩ [] s
      ⟨0, 0⟩ (fun _ h => absurd h (List.not_mem_nil _)) hm (by omega)
    have hstep := loop_step fragmentLib "b".toList grammarStar fuel s _ true
      (by rw [hp]; decide) hit
    rw [hstep, ih fuel _ (by simp only [afterEmit]; omega)
      (by simp only [afterEmit, List.length_set]; omega) (by omega)]
    simp only [afterEmit, List.length_set]

/-- C5 fails on the rule `a*` and the input `b`: the pattern matches the empty string
at position 0, so an iteration entered at position 0 stores an empty token, prints
its line and leaves the cursor at position 0; and whatever the buffer, `matcher` does
not return: it keeps storing empty tokens until the store leaves the buffer. -/
theorem zero_length_match_no_progress :
    (∀ (before after : List (Option CStr)) (old : Option CStr) (out : List CStr),
      iteration fragmentLib "b".toList grammarStar
          { pos := 0, j := before.length, tokenBuf := before ++ old :: after, out := out } =
        .done { pos := 0, j := before.length + 1, tokenBuf := before ++ some [] :: after,
                out := out ++ ["\tAs\n".toList] } true) ∧
    (∀ tokenBuf : List (Option CStr),
      matcher fragmentLib "b".toList grammarStar tokenBuf =
        .aborted (.storeOutOfBounds tokenBuf.length)) := by
  refine ⟨?_, ?_⟩
  · intro before after old out
    have hm : MatchesAt fragmentLib "b".toList (skipSpace "b".toList 0)
        ⟨"a*".toList, "As".toList⟩ ⟨0, 0⟩ := ⟨by decide, by decide, rfl⟩
    have hit := iteration_match fragmentLib "b".toList [] ⟨"a*".toList, "As".toList⟩ []
      { pos := 0, j := before.length, tokenBuf := before ++ old :: after, out := out }
      ⟨0, 0⟩ (by simp) hm (by simp)
    have hsk : skipSpace ['b'] 0 = 0 := by decide
    rw [show grammarStar = [] ++ (⟨"a*".toList, "As".toList⟩ : token_t) :: [] from rfl, hit]
    simp [afterEmit, hsk]
  · intro tokenBuf
    have h := star_rule_never_returns_aux tokenBuf.length
      ("b".toList.length + tokenBuf.length + 1)
      { pos := 0, j := 0, tokenBuf := tokenBuf, out := [] } rfl (by simp) (by omega)
    have hne : ¬ ("b".toList = [] ∨ grammarStar.length < 1) := by decide
    simp only [matcher, hne, if_false, scan, h]

/-! ## C6: unused entries -/

/-- C6 fails on the early return of lines 45-46: for the empty input (whatever the
grammar) and for the empty grammar (whatever the input) `matcher` returns with the
buffer exactly as it was, so an entry that was not `NULL` before the call is not
`NULL` after it although no token was produced. -/
theorem early_return_leaves_buffer (E : RegexLib) (tokens : List token_t) (string : CStr)
    (tokenBuf : List (Option CStr)) :
    matcher E [] tokens tokenBuf =
      .returned { pos := 0, j := 0, tokenBuf := tokenBuf, out := [] } ∧
    matcher E string [] tokenBuf =
      .returned { pos := 0, j := 0, tokenBuf := tokenBuf, out := [] } ∧
    matcher fragmentLib [] grammarAB [some "stale".toList] =
      .returned { pos := 0, j := 0, tokenBuf := [some "stale".toList], out := [] } := by
  refine ⟨by simp [matcher], by simp [matcher], by decide⟩

/-! ## C7: capacity -/

/-- C7 fails on the rule `a*` and the input `b` of length 1 with a buffer of one
entry (`nbuf = L`): the scan stores an empty token at index 0 and then stores at
index 1, outside the buffer. -/
theorem capacity_exceeded_by_empty_tokens :
    "b".toList.length ≤ [(none : Option CStr)].length ∧
    scan fragmentLib "b".toList grammarStar [none] = .aborted (.storeOutOfBounds 1) ∧
    matcher fragmentLib "b".toList grammarStar [none] = .aborted (.storeOutOfBounds 1) := by
  refine ⟨by decide, by decide, by decide⟩

/-! ## How a run can abort -/

/-- What the rule loop did when it aborts: it reached a rule, the rules before it
having been rejected, and either that rule's pattern does not compile, or the rule
matches anchored while `j` is outside the buffer. -/
theorem ruleLoop_aborted (E : RegexLib) (string : CStr) (tokens : List token_t)
    (s : State) (a : Abort) (h : ruleLoop E string tokens s = .aborted a) :
    ∃ pre tok post, tokens = pre ++ tok :: post ∧
      (∀ t ∈ pre, Rejects E string s.pos t) ∧
      ((E.regcomp tok.regex ≠ 0 ∧
          a = .regexException (E.regcomp tok.regex) (E.regerror (E.regcomp tok.regex))) ∨
       (∃ m, MatchesAt E string s.pos tok m ∧ ¬ s.j < s.tokenBuf.length ∧
          a = .storeOutOfBounds s.j)) := by
  induction tokens with
  | nil => simp [ruleLoop] at h
  | cons tok rest ih =>
    by_cases hc : E.regcomp tok.regex = 0
    · have hrec : Rejects E string s.pos tok →
          ∃ pre t post, tok :: rest = pre ++ t :: post ∧
            (∀ u ∈ pre, Rejects E string s.pos u) ∧
            ((E.regcomp t.regex ≠ 0 ∧
              a = .regexException (E.regcomp t.regex) (E.regerror (E.regcomp t.regex))) ∨
             (∃ m, MatchesAt E string s.pos t m ∧ ¬ s.j < s.tokenBuf.length ∧
              a = .storeOutOfBounds s.j)) := by
        intro hr
        rw [ruleLoop_reject E string tok rest s hr] at h
        obtain ⟨pre, t, post, ht, hpre, hcase⟩ := ih h
        refine ⟨tok :: pre, t, post, by simp [ht], ?_, hcase⟩
        intro u hu
        rcases List.mem_cons.mp hu with rfl | hu
        · exact hr
        · exact hpre u hu
      cases hx : E.regexec tok.regex (string.drop s.pos) with
      | none => exact hrec (rejects_of_none E string s.pos tok hc hx)
      | some m =>
        by_cases hso : m.rm_so = 0
        · have hm : MatchesAt E string s.pos tok m := ⟨hc, hx, hso⟩
          rw [ruleLoop_match E string tok rest s m hm] at h
          by_cases hj : s.j < s.tokenBuf.length
          · rw [emit_of_anchored string tok m s hso hj] at h
            cases h
          · simp only [emit, hj, if_false, RuleLoop.aborted.injEq] at h
            exact ⟨[], tok, rest, rfl, by simp, Or.inr ⟨m, hm, hj, h.symm⟩⟩
        · exact hrec (rejects_of_later E string s.pos tok m hc hx hso)
    · refine ⟨[], tok, rest, rfl, by simp, Or.inl ⟨hc, ?_⟩⟩
      simp only [ruleLoop, ne_eq, hc, not_false_eq_true, if_true, RuleLoop.aborted.injEq] at h
      exact h.symm

theorem iteration_aborted (E : RegexLib) (string : CStr) (tokens : List token_t)
    (s : State) (a : Abort) (h : iteration E string tokens s = .aborted a) :
    ruleLoop E string tokens { s with pos := skipSpace string s.pos } = .aborted a := by
  unfold iteration at h
  cases hr : ruleLoop E string tokens { s with pos := skipSpace string s.pos } with
  | done s2 b2 => cases b2 <;> simp [hr] at h
  | aborted a2 =>
    rw [hr] at h
    simp only [RuleLoop.aborted.injEq] at h
    rw [h]

/-- Invariant rule for the aborting runs: a run that aborts for another reason than
its budget does so from a state that satisfies every property the non-aborting
iterations preserve, either on the read of `*string` or inside an iteration. -/
theorem loop_aborted (E : RegexLib) (string : CStr) (tokens : List token_t)
    (P : State → Prop)
    (hstep : ∀ s s1 b, s.pos < string.length → P s →
      iteration E string tokens s = .done s1 b → P s1) :
    ∀ fuel s a, P s → loop E string tokens fuel s = .aborted a →
      a = .outOfFuel ∨ ∃ u, P u ∧
        ((string.length < u.pos ∧ a = .readOutOfBounds u.pos) ∨
         (u.pos < string.length ∧ iteration E string tokens u = .aborted a)) := by
  intro fuel
  induction fuel with
  | zero =>
    intro s a _ h
    simp only [loop, Outcome.aborted.injEq] at h
    exact Or.inl h.symm
  | succ fuel ih =>
    intro s a hP h
    rcases Nat.lt_trichotomy s.pos string.length with hlt | heq | hgt
    · cases hit : iteration E string tokens s with
      | aborted a2 =>
        rw [loop_abort E string tokens fuel s a2 hlt hit] at h
        cases h
        exact Or.inr ⟨s, hP, Or.inr ⟨hlt, hit⟩⟩
      | done s1 b =>
        rw [loop_step E string tokens fuel s s1 b hlt hit] at h
        exact ih s1 a (hstep s s1 b hlt hP hit) h
    · rw [loop_end E string tokens fuel s heq] at h; cases h
    · rw [loop_past E string tokens fuel s hgt] at h
      cases h
      exact Or.inr ⟨s, hP, Or.inl ⟨hgt, rfl⟩⟩

/-- Every non-aborting iteration keeps the length of the buffer and keeps `j` at
most that length. -/
theorem iteration_capacity (E : RegexLib) (string : CStr) (tokens : List token_t)
    (n : Nat) (s s1 : State) (b : Bool)
    (hP : s.tokenBuf.length = n ∧ s.j ≤ n)
    (hit : iteration E string tokens s = .done s1 b) :
    s1.tokenBuf.length = n ∧ s1.j ≤ n := by
  rcases iteration_done E string tokens s s1 b hit with
    ⟨_, hu, _⟩ | ⟨_, pre, tok, post, m, _, _, _, hlt, hu⟩
  · subst hu
    exact hP
  · subst hu
    simp only [afterEmit, List.length_set]
    omega

theorem matcher_of_scan (E : RegexLib) (string : CStr) (tokens : List token_t)
    (tokenBuf : List (Option CStr)) (hs : string ≠ []) (ht : tokens ≠ []) :
    matcher E string tokens tokenBuf =
      match scan E string tokens tokenBuf with
      | .returned s => .returned (fillNull s)
      | .aborted a => .aborted a := by
  have hlen : ¬ tokens.length < 1 := by
    have := List.length_pos.mpr ht
    omega
  simp [matcher, hs, hlen]

/-! ## C8: capacity is not checked -/

/-- C8, as the claim states it, fails: with the rules `a`, `b`, the input `ab` and a
buffer of one entry, the second token is stored at index 1 = `nbuf`, outside the
buffer; the code has no capacity error to report. -/
theorem capacity_unchecked_counterexample :
    matcher fragmentLib "ab".toList grammarAB [none] = .aborted (.storeOutOfBounds 1) ∧
    emit "ab".toList ⟨"b".toList, "B".toList⟩ ⟨0, 1⟩
        { pos := 1, j := 1, tokenBuf := [some "a".toList], out := ["a\tA\n".toList] } =
      .aborted (.storeOutOfBounds 1) := by
  refine ⟨by decide, by decide⟩

/-! ## C9: a pattern that does not compile -/

/-- C9, as the claim states it, fails: the grammar `a`, `(` contains a pattern that
does not compile, yet on the input `aa` the rule `a` matches at every position, the
rule `(` is never compiled, and `matcher` returns the two tokens. -/
theorem bad_pattern_unreached_counterexample :
    fragmentLib.regcomp "(".toList ≠ 0 ∧
    matcher fragmentLib "aa".toList grammarAParen [none, none] =
      .returned { pos := 2, j := 2, tokenBuf := [some "a".toList, some "a".toList],
                  out := ["a\tA\n".toList, "a\tA\n".toList] } := by
  refine ⟨by decide, by decide⟩

/-- C9 (amended): a pattern is compiled when its rule is tried. When an iteration of
the scan reaches, at its cursor, a rule whose pattern does not compile (every rule
before it having been tried and rejected there), the run aborts with the
`regexException` of that pattern's status and message, and no buffer is returned:
the rule is not skipped and the rules after it are not used. In particular `matcher`
aborts so on a non-empty input when this happens at the first position tried. -/
theorem bad_pattern_aborts_when_tried (E : RegexLib) (string : CStr)
    (pre : List token_t) (bad : token_t) (post : List token_t)
    (hbad : E.regcomp bad.regex ≠ 0) :
    (∀ (fuel : Nat) (s : State), s.pos < string.length →
      (∀ t ∈ pre, Rejects E string (skipSpace string s.pos) t) →
      loop E string (pre ++ bad :: post) (fuel + 1) s =
        .aborted (.regexException (E.regcomp bad.regex) (E.regerror (E.regcomp bad.regex)))) ∧
    (∀ tokenBuf : List (Option CStr), string ≠ [] →
      (∀ t ∈ pre, Rejects E string (skipSpace string 0) t) →
      matcher E string (pre ++ bad :: post) tokenBuf =
        .aborted (.regexException (E.regcomp bad.regex) (E.regerror (E.regcomp bad.regex)))) := by
  have hloop : ∀ (fuel : Nat) (s : State), s.pos < string.length →
      (∀ t ∈ pre, Rejects E string (skipSpace string s.pos) t) →
      loop E string (pre ++ bad :: post) (fuel + 1) s =
        .aborted (.regexException (E.regcomp bad.regex) (E.regerror (E.regcomp bad.regex))) := by
    intro fuel s hpos hpre
    apply loop_abort E string _ fuel s _ hpos
    have h := ruleLoop_rejects E string pre (bad :: post)
      { s with pos := skipSpace string s.pos } hpre
    simp only [iteration, h, ruleLoop, ne_eq, hbad, not_false_eq_true, if_true]
  refine ⟨hloop, ?_⟩
  intro tokenBuf hne hpre
  rw [matcher_of_scan E string _ tokenBuf hne (by simp)]
  have hpos : 0 < string.length := List.length_pos.mpr hne
  simp only [scan, hloop _ { pos := 0, j := 0, tokenBuf := tokenBuf, out := [] } hpos hpre]

/-- C9 (amended) on the rules `x`, `(`, `a` and the input `a`: the rule `x` is
rejected at position 0, the pattern `(` is compiled next, and `matcher` aborts with
status 8. -/
theorem bad_pattern_aborts_when_tried_witness :
    matcher fragmentLib "a".toList grammarXParenA [none] =
      .aborted (.regexException 8 "Unmatched ( or \\(".toList) :=
  (bad_pattern_aborts_when_tried fragmentLib "a".toList [⟨"x".toList, "X".toList⟩]
    ⟨"(".toList, "P".toList⟩ [⟨"a".toList, "A".toList⟩] (by decide)).2 [none] (by decide)
    (by
      intro t ht
      rw [List.mem_singleton] at ht
      subst ht
      exact rejects_of_none fragmentLib _ _ _ (by decide) (by decide))

/-! ## The tokens of a scan that stays inside the input -/

theorem take_succ_set (l : List (Option CStr)) (j : Nat) (x : Option CStr)
    (h : j < l.length) : (l.set j x).take (j + 1) = l.take j ++ [x] := by
  induction l generalizing j with
  | nil => simp at h
  | cons a l ih =>
    cases j with
    | zero => simp
    | succ j =>
      simp only [List.length_cons, Nat.add_lt_add_iff_right] at h
      simp only [List.set_cons_succ, List.take_succ_cons, List.cons_append, ih j h]

theorem take_take_length (l : CStr) (n : Nat) :
    l.take n = l.take (l.take n).length := by
  rw [List.length_take]
  rcases Nat.le_total n l.length with h | h
  · rw [Nat.min_eq_left h]
  · rw [Nat.min_eq_right h, List.take_of_length_le h, List.take_of_length_le (le_refl _)]

/-- When the model of the scan returns, that is when the cursor never passes the NUL
and no store leaves the buffer, with `k` tokens in the buffer, there are `k` pairs of
an offset `p_m` and a text `t_m` such that entry `m` of the buffer is `t_m`, each `t_m`
is the substring `input[p_m, p_m + |t_m|)` and lies inside the input, and
`p_m + |t_m| ≤ p_n` whenever `m` comes before `n`. -/
theorem returned_tokens_in_input_order (E : RegexLib) (string : CStr) (tokens : List token_t)
    (tokenBuf : List (Option CStr)) (s : State)
    (h : scan E string tokens tokenBuf = .returned s) :
    ∃ spans : List (Nat × CStr),
      spans.length = s.j ∧
      s.tokenBuf.take s.j = spans.map (fun sp => some sp.2) ∧
      (∀ sp ∈ spans, sp.2 = (string.drop sp.1).take sp.2.length ∧
        sp.1 + sp.2.length ≤ string.length) ∧
      spans.Pairwise (fun a b => a.1 + a.2.length ≤ b.1) ∧
      (fillNull s).tokenBuf =
        spans.map (fun sp => some sp.2) ++ List.replicate (tokenBuf.length - s.j) none := by
  unfold scan at h
  have key := loop_invariant E string tokens
    (fun u => (u.tokenBuf.length = tokenBuf.length ∧ u.j ≤ tokenBuf.length) ∧
      ∃ spans : List (Nat × CStr),
        spans.length = u.j ∧
        u.tokenBuf.take u.j = spans.map (fun sp => some sp.2) ∧
        (∀ sp ∈ spans, sp.2 = (string.drop sp.1).take sp.2.length ∧
          sp.1 + sp.2.length ≤ u.pos) ∧
        spans.Pairwise (fun a b => a.1 + a.2.length ≤ b.1))
    (by
      intro u u1 b _ hP hit
      refine ⟨iteration_capacity E string tokens tokenBuf.length u u1 b hP.1 hit, ?_⟩
      obtain ⟨_, spans, hlen, hbuf, hsub, hord⟩ := hP
      have hge := skipSpace_ge string u.pos
      rcases iteration_done E string tokens u u1 b hit with
        ⟨_, hu, _⟩ | ⟨_, pre, tok, post, m, _, _, _, hlt, hu⟩
      · subst hu
        refine ⟨spans, hlen, hbuf, ?_, hord⟩
        intro sp hsp
        have := hsub sp hsp
        exact ⟨this.1, by simp only; omega⟩
      · subst hu
        have htl : ((string.drop (skipSpace string u.pos)).take m.rm_eo).length ≤ m.rm_eo := by
          rw [List.length_take]
          exact Nat.min_le_left _ _
        refine ⟨spans ++ [(skipSpace string u.pos,
          (string.drop (skipSpace string u.pos)).take m.rm_eo)], ?_, ?_, ?_, ?_⟩
        · simp [afterEmit, hlen]
        · simp only [afterEmit, List.map_append, List.map_cons, List.map_nil]
          rw [← hbuf]
          exact take_succ_set u.tokenBuf u.j _ hlt
        · intro sp hsp
          rcases List.mem_append.mp hsp with hsp | hsp
          · have := hsub sp hsp
            exact ⟨this.1, by simp only [afterEmit]; omega⟩
          · rw [List.mem_singleton] at hsp
            subst hsp
            exact ⟨take_take_length _ _, by simp only [afterEmit]; omega⟩
        · rw [List.pairwise_append]
          refine ⟨hord, List.pairwise_singleton _ _, ?_⟩
          intro a ha c hc
          rw [List.mem_singleton] at hc
          subst hc
          have := (hsub a ha).2
          simp only
          omega)
    _ _ s ⟨⟨rfl, Nat.zero_le _⟩, [], rfl, by simp, by simp, List.Pairwise.nil⟩ h
  obtain ⟨⟨⟨hlen, _⟩, spans, hsl, hbuf, hsub, hord⟩, hpos⟩ := key
  refine ⟨spans, hsl, hbuf, ?_, hord, ?_⟩
  · intro sp hsp
    have := hsub sp hsp
    exact ⟨this.1, by omega⟩
  · simp only [fillNull, hbuf, hlen]

/-- On the rules `ab`, `c` and the input `ab c` the tokens `ab` and `c` lie at the
offsets 0 and 3. -/
theorem returned_tokens_in_input_order_example :
    ∃ spans : List (Nat × CStr),
      spans.length = 2 ∧
      [(some "ab".toList : Option CStr), some "c".toList] = spans.map (fun sp => some sp.2) ∧
      (∀ sp ∈ spans, sp.2 = ("ab c".toList.drop sp.1).take sp.2.length ∧
        sp.1 + sp.2.length ≤ 4) ∧
      spans.Pairwise (fun a b => a.1 + a.2.length ≤ b.1) ∧
      [(some "ab".toList : Option CStr), some "c".toList, none, none] =
        spans.map (fun sp => some sp.2) ++ List.replicate 2 none :=
  returned_tokens_in_input_order fragmentLib "ab c".toList grammarAbC [none, none, none, none]
    { pos := 4, j := 2, tokenBuf := [some "ab".toList, some "c".toList, none, none],
      out := ["ab\tAB\n".toList, "c\tC\n".toList] } (by decide)

/-! ## The emissions of a run -/

theorem traced_capacity (E : RegexLib) (string : CStr) (tokens : List token_t) (s : State)
    (tr : List Emission) (h : Traced E string tokens s tr) : s.j ≤ s.tokenBuf.length := by
  obtain ⟨hlen, hbuf, _, _⟩ := h
  have h1 := congrArg List.length hbuf
  rw [List.length_take, List.length_map, hlen] at h1
  omega

/-- Every non-aborting iteration entered inside the input extends the emissions by at
most one. -/
theorem iteration_traced (E : RegexLib) (string : CStr) (tokens : List token_t)
    (s s1 : State) (b : Bool) (tr : List Emission) (hpos : s.pos < string.length)
    (hT : Traced E string tokens s tr) (hit : iteration E string tokens s = .done s1 b) :
    ∃ tr1, Traced E string tokens s1 tr1 := by
  obtain ⟨hlen, hbuf, hout, hall⟩ := hT
  rcases iteration_done E string tokens s s1 b hit with
    ⟨_, hu, _⟩ | ⟨_, pre, tok, post, m, htok, _, hm, hlt, hu⟩
  · subst hu
    exact ⟨tr, hlen, hbuf, hout, hall⟩
  · subst hu
    refine ⟨tr ++ [(skipSpace string s.pos, tok, m)], ?_, ?_, ?_, ?_⟩
    · simp [afterEmit, hlen]
    · simp only [afterEmit, List.map_append, List.map_cons, List.map_nil]
      rw [← hbuf]
      exact take_succ_set s.tokenBuf s.j _ hlt
    · simp only [afterEmit, List.map_append, List.map_cons, List.map_nil, hout]
      rfl
    · intro e he
      rcases List.mem_append.mp he with he | he
      · exact hall e he
      · rw [List.mem_singleton] at he
        subst he
        exact ⟨by simp [htok], hm, s.pos, hpos, rfl⟩

/-- The state a scan returns is what a sequence of emissions produces. -/
theorem scan_traced (E : RegexLib) (string : CStr) (tokens : List token_t)
    (tokenBuf : List (Option CStr)) (s : State)
    (h : scan E string tokens tokenBuf = .returned s) :
    (∃ tr, Traced E string tokens s tr) ∧ s.tokenBuf.length = tokenBuf.length ∧
      s.pos = string.length := by
  unfold scan at h
  have key := loop_invariant E string tokens
    (fun u => (u.tokenBuf.length = tokenBuf.length ∧ u.j ≤ tokenBuf.length) ∧
      ∃ tr, Traced E string tokens u tr)
    (by
      intro u u1 b hpos hP hit
      obtain ⟨hcap, tr, hT⟩ := hP
      exact ⟨iteration_capacity E string tokens tokenBuf.length u u1 b hcap hit,
        iteration_traced E string tokens u u1 b tr hpos hT hit⟩)
    _ _ s ⟨⟨rfl, Nat.zero_le _⟩, [], rfl, by simp, by simp, by simp⟩ h
  exact ⟨key.1.2, key.1.1.1, key.2⟩

/-- What `matcher` returns is the early return, or the NULL fill of what the scan
returns. -/
theorem matcher_returned (E : RegexLib) (string : CStr) (tokens : List token_t)
    (tokenBuf : List (Option CStr)) (r : State)
    (h : matcher E string tokens tokenBuf = .returned r) :
    ((string = [] ∨ tokens.length < 1) ∧
        r = { pos := 0, j := 0, tokenBuf := tokenBuf, out := [] }) ∨
    (string ≠ [] ∧ tokens ≠ [] ∧
        ∃ s, scan E string tokens tokenBuf = .returned s ∧ r = fillNull s) := by
  by_cases hearly : string = [] ∨ tokens.length < 1
  · simp only [matcher, if_pos hearly, Outcome.returned.injEq] at h
    exact Or.inl ⟨hearly, h.symm⟩
  · simp only [matcher, if_neg hearly] at h
    have hs : string ≠ [] := fun hc => hearly (Or.inl hc)
    have ht : tokens ≠ [] := fun hc => hearly (Or.inr (by simp [hc]))
    cases hsc : scan E string tokens tokenBuf with
    | aborted a => rw [hsc] at h; cases h
    | returned s =>
      rw [hsc] at h
      simp only [Outcome.returned.injEq] at h
      exact Or.inr ⟨hs, ht, s, rfl, h.symm⟩

theorem fillNull_take (s : State) (h : s.j ≤ s.tokenBuf.length) :
    (fillNull s).tokenBuf.take s.j = s.tokenBuf.take s.j := by
  simp only [fillNull]
  rw [List.take_append_of_le_length (by rw [List.length_take]; omega), List.take_take]
  simp

/-! ## C11: the diagnostic lines -/

/-- Whenever `matcher` returns, there is a sequence of emissions (a rule of the
grammar that matched anchored at a cursor of the scan) such that the tokens stored
at the head of the buffer are the texts of the emissions, in order, and the output
is exactly one line per emission, in the same order. -/
theorem returned_lines_follow_tokens (E : RegexLib) (string : CStr)
    (tokens : List token_t) (tokenBuf : List (Option CStr)) (r : State)
    (h : matcher E string tokens tokenBuf = .returned r) :
    ∃ tr : List Emission,
      r.tokenBuf.take tr.length =
        tr.map (fun e => some ((string.drop e.1).take e.2.2.rm_eo)) ∧
      r.out = tr.map (fun e => (string.drop e.1).take e.2.2.rm_eo ++
        '\t' :: e.2.1.name ++ ['\n']) ∧
      r.out.length = tr.length ∧
      (∀ e ∈ tr, e.2.1 ∈ tokens ∧ MatchesAt E string e.1 e.2.1 e.2.2) ∧
      (∀ s, scan E string tokens tokenBuf = .returned s → s.j = tr.length) := by
  rcases matcher_returned E string tokens tokenBuf r h with ⟨hearly, hr⟩ | ⟨_, _, s, hsc, hr⟩
  · subst hr
    refine ⟨[], by simp, by simp, by simp, by simp, ?_⟩
    intro s hsc
    obtain ⟨⟨tr, hT⟩, _, _⟩ := scan_traced E string tokens tokenBuf s hsc
    obtain ⟨hlen, _, _, hall⟩ := hT
    cases tr with
    | nil => simpa using hlen.symm
    | cons e tr =>
      obtain ⟨hmem, _, q, hq, _⟩ := hall e (List.mem_cons_self e tr)
      rcases hearly with h1 | h1
      · subst h1
        simp at hq
      · have hpos := List.length_pos_of_mem hmem
        omega
  · obtain ⟨⟨tr, hT⟩, _, _⟩ := scan_traced E string tokens tokenBuf s hsc
    have hcap := traced_capacity E string tokens s tr hT
    obtain ⟨hlen, hbuf, hout, hall⟩ := hT
    subst hr
    refine ⟨tr, ?_, ?_, ?_, ?_, ?_⟩
    · rw [hlen, fillNull_take s hcap, hbuf]
      rfl
    · simp only [fillNull, hout]
      rfl
    · simp only [fillNull, hout, List.length_map]
    · intro e he
      exact ⟨(hall e he).1, (hall e he).2.1⟩
    · intro s2 hs2
      rw [hsc] at hs2
      cases hs2
      exact hlen.symm

/-! ## C12: the empty input -/

/-- C12: on the empty input, with a grammar of at least one rule, `matcher` returns at
once: it stores no token (`j = 0`, the buffer is as it was), prints nothing, and tries
no rule, whatever the regex library and the patterns are. -/
theorem empty_input_no_tokens (E : RegexLib) (tokens : List token_t)
    (tokenBuf : List (Option CStr)) (_hn : 1 ≤ tokens.length) :
    matcher E [] tokens tokenBuf =
      .returned { pos := 0, j := 0, tokenBuf := tokenBuf, out := [] } ∧
    ∀ E2 : RegexLib, matcher E2 [] tokens tokenBuf = matcher E [] tokens tokenBuf := by
  refine ⟨by simp [matcher], fun E2 => by simp [matcher]⟩

/-- C12 on a grammar whose second pattern does not compile: no rule is tried. -/
theorem empty_input_no_tokens_witness :
    matcher fragmentLib [] grammarAParen [none] =
      .returned { pos := 0, j := 0, tokenBuf := [none], out := [] } ∧
    ∀ E2 : RegexLib, matcher E2 [] grammarAParen [none] =
      matcher fragmentLib [] grammarAParen [none] :=
  empty_input_no_tokens fragmentLib grammarAParen [none] (by decide)

/-! ## C13: the empty grammar -/

/-- C13 fails on the early return of lines 45-46: with zero rules `matcher` returns
before the scan and before the NULL fill, so it stores no token but the buffer it
leaves is the buffer it was given; an entry that held a stale pointer still holds it. -/
theorem empty_grammar_leaves_buffer :
    (∀ (E : RegexLib) (string : CStr) (tokenBuf : List (Option CStr)),
      matcher E string [] tokenBuf =
        .returned { pos := 0, j := 0, tokenBuf := tokenBuf, out := [] }) ∧
    matcher fragmentLib "ab".toList [] [some "stale".toList, none] =
      .returned { pos := 0, j := 0, tokenBuf := [some "stale".toList, none], out := [] } ∧
    freeTokens [some "stale".toList, none] 2 = [(0, "stale".toList)] := by
  refine ⟨fun E string tokenBuf => by simp [matcher], by decide, by decide⟩

/-! ## Runs that differ in the leading characters or in the old buffer contents -/

theorem drop_shift (w string : CStr) (p : Nat) :
    (w ++ string).drop (p + w.length) = string.drop p := by
  rw [Nat.add_comm]
  exact List.drop_append p

theorem skipSpace_shift (w string : CStr) (p : Nat) :
    skipSpace (w ++ string) (p + w.length) = skipSpace string p + w.length := by
  simp only [skipSpace, drop_shift]
  omega

theorem skipSpace_leading (w string : CStr) (hw : ∀ c ∈ w, isspace c = true) :
    skipSpace (w ++ string) 0 = skipSpace string 0 + w.length := by
  simp only [skipSpace, List.drop_zero, Nat.zero_add]
  rw [List.takeWhile_append_of_pos hw, List.length_append]
  omega

theorem emit_sim (w string : CStr) (tok : token_t) (m : regmatch_t) (s1 s2 : State)
    (h : Sim w.length s1 s2) :
    SimRule w.length (emit string tok m s1) (emit (w ++ string) tok m s2) := by
  obtain ⟨hpos, hj, hout, hlen, htake⟩ := h
  have hd : (w ++ string).drop (s2.pos + m.rm_so) = string.drop (s1.pos + m.rm_so) := by
    rw [hpos, show s1.pos + w.length + m.rm_so = (s1.pos + m.rm_so) + w.length by omega]
    exact drop_shift w string _
  by_cases hlt : s1.j < s1.tokenBuf.length
  · have hlt2 : s2.j < s2.tokenBuf.length := by omega
    simp only [emit, hlt, hlt2, if_true, SimRule, substr, diagLine, hd, true_and]
    refine ⟨by simp only [hpos]; omega, by simp only [hj], by simp only [hout],
      by simp only [List.length_set, hlen], ?_⟩
    simp only
    rw [take_succ_set s2.tokenBuf s2.j _ hlt2, take_succ_set s1.tokenBuf s1.j _ hlt, htake]
  · have hlt2 : ¬ s2.j < s2.tokenBuf.length := by omega
    have e1 : emit string tok m s1 = .aborted (.storeOutOfBounds s1.j) := by
      simp only [emit, hlt, if_false]
    have e2 : emit (w ++ string) tok m s2 = .aborted (.storeOutOfBounds s2.j) := by
      simp only [emit, hlt2, if_false]
    rw [e1, e2]
    simp only [SimRule, shiftAbort, hj]

theorem ruleLoop_sim (E : RegexLib) (w string : CStr) (tokens : List token_t)
    (s1 s2 : State) (h : Sim w.length s1 s2) :
    SimRule w.length (ruleLoop E string tokens s1) (ruleLoop E (w ++ string) tokens s2) := by
  induction tokens with
  | nil => exact ⟨rfl, h⟩
  | cons tok rest ih =>
    have hd : (w ++ string).drop s2.pos = string.drop s1.pos := by
      rw [h.1]
      exact drop_shift w string _
    simp only [ruleLoop, hd]
    by_cases hc : E.regcomp tok.regex = 0
    · simp only [hc, ne_eq, not_true_eq_false, if_false]
      cases hx : E.regexec tok.regex (string.drop s1.pos) with
      | none => exact ih
      | some m =>
        by_cases hso : m.rm_so = 0
        · simp only [hso, if_true]
          exact emit_sim w string tok m s1 s2 h
        · simp only [hso, if_false]
          exact ih
    · simp only [ne_eq, hc, not_false_eq_true, if_true, SimRule, shiftAbort]

theorem iteration_sim (E : RegexLib) (w string : CStr) (tokens : List token_t)
    (s1 s2 : State)
    (h : Sim w.length { s1 with pos := skipSpace string s1.pos }
      { s2 with pos := skipSpace (w ++ string) s2.pos }) :
    SimRule w.length (iteration E string tokens s1) (iteration E (w ++ string) tokens s2) := by
  have key := ruleLoop_sim E w string tokens _ _ h
  unfold iteration
  cases h1 : ruleLoop E string tokens { s1 with pos := skipSpace string s1.pos } with
  | aborted a1 =>
    cases h2 : ruleLoop E (w ++ string) tokens
        { s2 with pos := skipSpace (w ++ string) s2.pos } with
    | aborted a2 =>
      rw [h1, h2] at key
      exact key
    | done u2 b2 =>
      rw [h1, h2] at key
      exact key.elim
  | done u1 b1 =>
    cases h2 : ruleLoop E (w ++ string) tokens
        { s2 with pos := skipSpace (w ++ string) s2.pos } with
    | aborted a2 =>
      rw [h1, h2] at key
      exact key.elim
    | done u2 b2 =>
      rw [h1, h2] at key
      obtain ⟨hb, hpos, hj, hout, hlen, htake⟩ := key
      subst hb
      cases b1 with
      | true => exact ⟨rfl, hpos, hj, hout, hlen, htake⟩
      | false =>
        refine ⟨rfl, ?_, hj, hout, hlen, htake⟩
        simp only [hpos]
        omega

theorem loop_sim (E : RegexLib) (w string : CStr) (tokens : List token_t) :
    ∀ (fuel : Nat) (s1 s2 : State), Sim w.length s1 s2 →
      SimOutcome w.length (loop E string tokens fuel s1)
        (loop E (w ++ string) tokens fuel s2) := by
  intro fuel
  induction fuel with
  | zero =>
    intro s1 s2 _
    simp only [loop, SimOutcome, shiftAbort]
  | succ fuel ih =>
    intro s1 s2 h
    have hpos := h.1
    have hL : (w ++ string).length = string.length + w.length := by
      rw [List.length_append]
      omega
    rcases Nat.lt_trichotomy s1.pos string.length with hlt | heq | hgt
    · have hit := iteration_sim E w string tokens s1 s2 (by
        obtain ⟨_, hj, hout, hlen, htake⟩ := h
        refine ⟨?_, hj, hout, hlen, htake⟩
        simp only [hpos]
        exact skipSpace_shift w string s1.pos)
      cases h1 : iteration E string tokens s1 with
      | aborted a1 =>
        cases h2 : iteration E (w ++ string) tokens s2 with
        | aborted a2 =>
          rw [h1, h2] at hit
          rw [loop_abort E string tokens fuel s1 a1 hlt h1,
            loop_abort E (w ++ string) tokens fuel s2 a2 (by omega) h2]
          exact hit
        | done u2 b2 =>
          rw [h1, h2] at hit
          exact hit.elim
      | done u1 b1 =>
        cases h2 : iteration E (w ++ string) tokens s2 with
        | aborted a2 =>
          rw [h1, h2] at hit
          exact hit.elim
        | done u2 b2 =>
          rw [h1, h2] at hit
          rw [loop_step E string tokens fuel s1 u1 b1 hlt h1,
            loop_step E (w ++ string) tokens fuel s2 u2 b2 (by omega) h2]
          exact ih u1 u2 hit.2
    · rw [loop_end E string tokens fuel s1 heq,
        loop_end E (w ++ string) tokens fuel s2 (by omega)]
      exact h
    · rw [loop_past E string tokens fuel s1 hgt,
        loop_past E (w ++ string) tokens fuel s2 (by omega)]
      simp only [SimOutcome, shiftAbort, hpos]

theorem fillNull_sim (d : Nat) (s1 s2 : State) (h : Sim d s1 s2) :
    (fillNull s2).tokenBuf = (fillNull s1).tokenBuf ∧ (fillNull s2).out = (fillNull s1).out ∧
      (fillNull s2).j = (fillNull s1).j ∧ (fillNull s2).pos = (fillNull s1).pos + d := by
  obtain ⟨hpos, hj, hout, hlen, htake⟩ := h
  rw [hj] at htake
  simp only [fillNull, htake, hlen, hj, hout, hpos, and_self]

/-- On a non-empty input with a non-empty grammar, what `matcher` does is the same for
two buffers of the same size, whatever they held. -/
theorem matcher_ignores_old_contents (E : RegexLib) (string : CStr) (tokens : List token_t)
    (buf1 buf2 : List (Option CStr)) (hs : string ≠ []) (ht : tokens ≠ [])
    (hlen : buf2.length = buf1.length) :
    matcher E string tokens buf2 = matcher E string tokens buf1 := by
  rw [matcher_of_scan E string tokens buf1 hs ht, matcher_of_scan E string tokens buf2 hs ht]
  have key := loop_sim E [] string tokens (string.length + buf1.length + 1)
    { pos := 0, j := 0, tokenBuf := buf1, out := [] }
    { pos := 0, j := 0, tokenBuf := buf2, out := [] } ⟨rfl, rfl, rfl, hlen, rfl⟩
  simp only [List.nil_append] at key
  unfold scan
  rw [hlen]
  cases h1 : loop E string tokens (string.length + buf1.length + 1)
      { pos := 0, j := 0, tokenBuf := buf1, out := [] } with
  | returned u1 =>
    cases h2 : loop E string tokens (string.length + buf1.length + 1)
        { pos := 0, j := 0, tokenBuf := buf2, out := [] } with
    | returned u2 =>
      rw [h1, h2] at key
      have hf := fillNull_sim _ u1 u2 key
      simp only [Outcome.returned.injEq]
      have e1 : fillNull u2 = ⟨(fillNull u2).pos, (fillNull u2).j, (fillNull u2).tokenBuf,
        (fillNull u2).out⟩ := rfl
      have e2 : fillNull u1 = ⟨(fillNull u1).pos, (fillNull u1).j, (fillNull u1).tokenBuf,
        (fillNull u1).out⟩ := rfl
      rw [e1, e2, hf.1, hf.2.1, hf.2.2.1, hf.2.2.2]
      rfl
    | aborted a2 =>
      rw [h1, h2] at key
      exact key.elim
  | aborted a1 =>
    cases h2 : loop E string tokens (string.length + buf1.length + 1)
        { pos := 0, j := 0, tokenBuf := buf2, out := [] } with
    | returned u2 =>
      rw [h1, h2] at key
      exact key.elim
    | aborted a2 =>
      rw [h1, h2] at key
      simp only [SimOutcome] at key
      rw [key]
      cases a1 <;> simp [shiftAbort]

/-! ## C14: two runs -/

/-- C14 fails on the early return of lines 45-46: on the empty input the buffer
`matcher` returns is the buffer it was given, so two calls with the same input,
grammar and `nbuf` but different old contents return different buffers. -/
theorem early_return_depends_on_old_contents :
    matcher fragmentLib [] grammarA [some "stale".toList] =
      .returned { pos := 0, j := 0, tokenBuf := [some "stale".toList], out := [] } ∧
    matcher fragmentLib [] grammarA [none] =
      .returned { pos := 0, j := 0, tokenBuf := [none], out := [] } ∧
    matcher fragmentLib [] grammarA [some "stale".toList] ≠
      matcher fragmentLib [] grammarA [none] := by
  refine ⟨by decide, by decide, by decide⟩

/-! ## C15: `listEquals` -/

theorem listEquals_cons (x y : CStr) (a b : List (Option CStr)) :
    listEquals (some x :: a) (some y :: b) = if x ≠ y then some 0 else listEquals a b := by
  simp only [listEquals]

theorem listEquals_nil_right (a : List (Option CStr)) : listEquals a [] = some 1 := by
  cases a <;> simp [listEquals]

theorem listEquals_null (x y : Option CStr) (a b : List (Option CStr))
    (h : x = none ∨ y = none) : listEquals (x :: a) (y :: b) = none := by
  rcases h with rfl | rfl
  · simp [listEquals]
  · cases x <;> simp [listEquals]

/-- The entries at index `i` of both sequences are one and the same string. -/
theorem same_string_cons (x y : Option CStr) (a b : List (Option CStr)) :
    (∀ i, i < min (x :: a).length (y :: b).length →
        ∃ u, (x :: a)[i]? = some (some u) ∧ (y :: b)[i]? = some (some u)) ↔
      (∃ u, x = some u ∧ y = some u) ∧
      ∀ i, i < min a.length b.length → ∃ u, a[i]? = some (some u) ∧ b[i]? = some (some u) := by
  constructor
  · intro h
    refine ⟨?_, fun i hi => ?_⟩
    · have h0 := h 0 (by simp)
      simpa using h0
    · have h1 := h (i + 1) (by simp only [List.length_cons]; omega)
      simpa using h1
  · rintro ⟨h0, h1⟩ i hi
    cases i with
    | zero => simpa using h0
    | succ i =>
      simp only [List.length_cons] at hi
      simpa using h1 i (by omega)

/-- C15: for all sequences `a` and `b` (entries may be `NULL`), `listEquals` returns 1
exactly when, for every `i` below the smaller of the two lengths, `a[i]` and `b[i]` are
the same string; it returns 0 exactly when the entries are the same strings up to some
index below the smaller length at which they are two different strings. The lengths are
not compared and the entries from the smaller length on are not read: it returns 1
whenever one sequence is a sequence of strings and the other is that sequence followed
by any further entries, in particular whenever either sequence is empty. When all the
entries below the smaller length are strings, the result is 1 or 0. -/
theorem listEquals_common_prefix (a b : List (Option CStr)) :
    (listEquals a b = some 1 ↔
      ∀ i, i < min a.length b.length →
        ∃ u, a[i]? = some (some u) ∧ b[i]? = some (some u)) ∧
    (listEquals a b = some 0 ↔
      ∃ i, i < min a.length b.length ∧
        (∀ k, k < i → ∃ u, a[k]? = some (some u) ∧ b[k]? = some (some u)) ∧
        ∃ u v, a[i]? = some (some u) ∧ b[i]? = some (some v) ∧ u ≠ v) ∧
    (∀ (t : List CStr) (more : List (Option CStr)),
      listEquals (t.map some ++ more) (t.map some) = some 1 ∧
      listEquals (t.map some) (t.map some ++ more) = some 1) ∧
    listEquals [] b = some 1 ∧ listEquals a [] = some 1 ∧
    ((∀ i, i < min a.length b.length →
        ∃ u v, a[i]? = some (some u) ∧ b[i]? = some (some v)) →
      listEquals a b = some 1 ∨ listEquals a b = some 0) := by
  have htotal : ∀ (a b : List (Option CStr)),
      (∀ i, i < min a.length b.length →
        ∃ u v, a[i]? = some (some u) ∧ b[i]? = some (some v)) →
      listEquals a b = some 1 ∨ listEquals a b = some 0 := by
    intro a
    induction a with
    | nil => intro b _; exact Or.inl (by simp [listEquals])
    | cons x a ih =>
      intro b h
      cases b with
      | nil => exact Or.inl (listEquals_nil_right _)
      | cons y b =>
        obtain ⟨u, v, hu, hv⟩ := h 0 (by simp)
        simp only [List.getElem?_cons_zero, Option.some.injEq] at hu hv
        subst hu
        subst hv
        rw [listEquals_cons]
        by_cases huv : u = v
        · rw [if_neg (by simpa using huv)]
          apply ih b
          intro i hi
          have := h (i + 1) (by simp only [List.length_cons]; omega)
          simpa using this
        · rw [if_pos huv]
          exact Or.inr rfl
  have hone : ∀ (a b : List (Option CStr)), listEquals a b = some 1 ↔
      ∀ i, i < min a.length b.length →
        ∃ u, a[i]? = some (some u) ∧ b[i]? = some (some u) := by
    intro a
    induction a with
    | nil => intro b; simp [listEquals]
    | cons x a ih =>
      intro b
      cases b with
      | nil => simp [listEquals]
      | cons y b =>
        rw [same_string_cons]
        cases x with
        | none => simp [listEquals_null none y a b (Or.inl rfl)]
        | some u =>
          cases y with
          | none => simp [listEquals_null (some u) none a b (Or.inr rfl)]
          | some v =>
            rw [listEquals_cons]
            by_cases huv : u = v
            · subst huv
              simp only [ne_eq, not_true_eq_false, if_false, ih b]
              simp
            · rw [if_pos huv]
              constructor
              · intro h
                cases h
              · rintro ⟨⟨w, h1, h2⟩, _⟩
                cases h1
                cases h2
                exact absurd rfl huv
  have hzero : ∀ (a b : List (Option CStr)), listEquals a b = some 0 ↔
      ∃ i, i < min a.length b.length ∧
        (∀ k, k < i → ∃ u, a[k]? = some (some u) ∧ b[k]? = some (some u)) ∧
        ∃ u v, a[i]? = some (some u) ∧ b[i]? = some (some v) ∧ u ≠ v := by
    intro a
    induction a with
    | nil => intro b; simp [listEquals]
    | cons x a ih =>
      intro b
      cases b with
      | nil => simp [listEquals]
      | cons y b =>
        constructor
        · intro h
          cases x with
          | none => rw [listEquals_null none y a b (Or.inl rfl)] at h; cases h
          | some u =>
            cases y with
            | none => rw [listEquals_null (some u) none a b (Or.inr rfl)] at h; cases h
            | some v =>
              rw [listEquals_cons] at h
              by_cases huv : u = v
              · subst huv
                simp only [ne_eq, not_true_eq_false, if_false] at h
                obtain ⟨i, hi, hk, hd⟩ := (ih b).mp h
                refine ⟨i + 1, by simp only [List.length_cons]; omega, ?_, by simpa using hd⟩
                intro k hk2
                cases k with
                | zero => exact ⟨u, by simp⟩
                | succ k => simpa using hk k (by omega)
              · exact ⟨0, by simp, fun k hk => absurd hk (Nat.not_lt_zero k),
                  u, v, by simp, by simp, huv⟩
        · rintro ⟨i, hi, hk, u, v, hu, hv, huv⟩
          cases i with
          | zero =>
            simp only [List.getElem?_cons_zero, Option.some.injEq] at hu hv
            subst hu
            subst hv
            rw [listEquals_cons, if_pos huv]
          | succ i =>
            obtain ⟨w, hw1, hw2⟩ := hk 0 (by omega)
            simp only [List.getElem?_cons_zero, Option.some.injEq] at hw1 hw2
            subst hw1
            subst hw2
            rw [listEquals_cons]
            simp only [ne_eq, not_true_eq_false, if_false]
            refine (ih b).mpr ⟨i, ?_, ?_, u, v, by simpa using hu, by simpa using hv, huv⟩
            · simp only [List.length_cons] at hi
              omega
            · intro k hk2
              simpa using hk (k + 1) (by omega)
  refine ⟨hone a b, hzero a b, ?_, by simp [listEquals], listEquals_nil_right a,
    htotal a b⟩
  intro t more
  refine ⟨(hone _ _).mpr ?_, (hone _ _).mpr ?_⟩
  · intro i hi
    have hit : i < t.length := by
      have := Nat.lt_of_lt_of_le hi (Nat.min_le_right _ _)
      simpa using this
    have hg : (t.map some)[i]? = some (some t[i]) := by
      simp [List.getElem?_map, List.getElem?_eq_getElem hit]
    exact ⟨t[i], by rw [List.getElem?_append_left (by simpa using hit)]; exact hg, hg⟩
  · intro i hi
    have hit : i < t.length := by
      have := Nat.lt_of_lt_of_le hi (Nat.min_le_left _ _)
      simpa using this
    have hg : (t.map some)[i]? = some (some t[i]) := by
      simp [List.getElem?_map, List.getElem?_eq_getElem hit]
    exact ⟨t[i], hg, by rw [List.getElem?_append_left (by simpa using hit)]; exact hg⟩

/-- C15 on the buffer of two tokens followed by two `NULL` entries, compared with the
two expected strings: the `NULL` entries are beyond the smaller length and the result
is 1. -/
theorem listEquals_common_prefix_witness :
    listEquals (["ab".toList, "c".toList].map some ++ [none, none])
        (["ab".toList, "c".toList].map some) = some 1 ∧
    listEquals (["ab".toList, "c".toList].map some)
        (["ab".toList, "c".toList].map some ++ [none, none]) = some 1 :=
  have h := listEquals_common_prefix [] []
  h.2.2.1 ["ab".toList, "c".toList] [none, none]

/-! ## C16: the cursor and the end of the input -/

/-- An iteration that finds only whitespace up to the end of the input tries the rules
with the cursor on the terminating NUL; when none of them matches there, line 81
moves the cursor past the NUL and the next test of `*string` reads outside the input. -/
theorem trailing_whitespace_overrun (E : RegexLib) (string : CStr) (tokens : List token_t)
    (s : State) (fuel : Nat) (hpos : s.pos < string.length)
    (hws : skipSpace string s.pos = string.length)
    (hno : ∀ t ∈ tokens, Rejects E string string.length t) :
    iteration E string tokens s = .done { s with pos := string.length + 1 } false ∧
    loop E string tokens (fuel + 2) s = .aborted (.readOutOfBounds (string.length + 1)) := by
  have hit := iteration_none E string tokens s (by rw [hws]; exact hno)
  rw [hws] at hit
  refine ⟨hit, ?_⟩
  rw [loop_step E string tokens (fuel + 1) s _ false hpos hit]
  exact loop_past E string tokens fuel _ (by simp)

/-- C16 fails on an input that ends in whitespace: on `a ` (length 2) with the rule
`a`, the iteration entered at position 1 skips the blank, tries the rule with the
cursor on the NUL and leaves the cursor at 3, past the NUL, and `matcher` ends on the
read at position 3; on the test input of line 148 (length 34) the read is at
position 35. -/
theorem cursor_passes_terminator :
    "a ".toList.length = 2 ∧
    iteration fragmentLib "a ".toList grammarA
        { pos := 1, j := 1, tokenBuf := [some "a".toList, none], out := ["a\tA\n".toList] } =
      .done { pos := 3, j := 1, tokenBuf := [some "a".toList, none],
              out := ["a\tA\n".toList] } false ∧
    matcher fragmentLib "a ".toList grammarA [none, none] =
      .aborted (.readOutOfBounds 3) ∧
    testInput3.length = 34 ∧
    matcher fragmentLib testInput3 grammarA (List.replicate 34 none) =
      .aborted (.readOutOfBounds 35) := by
  refine ⟨by decide, by decide, by decide, by decide, by decide⟩

/-! ## C17: termination when no rule matches the empty string -/

theorem iteration_abort_not_budget (E : RegexLib) (string : CStr) (tokens : List token_t)
    (s : State) (a : Abort) (h : iteration E string tokens s = .aborted a) :
    a ≠ .outOfFuel := by
  obtain ⟨_, _, _, _, _, hcase⟩ :=
    ruleLoop_aborted E string tokens _ a (iteration_aborted E string tokens s a h)
  rcases hcase with ⟨_, ha⟩ | ⟨_, _, _, ha⟩ <;> (rw [ha]; simp)

/-- When no rule has a zero-length match at any position of the input, every
iteration of the outer loop that does not abort leaves the cursor at least one
character further, and the budget of the model is not exhausted within `L`
iterations: after at most `L` iterations the run has returned or aborted. -/
theorem progress_without_empty_matches (E : RegexLib) (string : CStr)
    (tokens : List token_t)
    (hz : ∀ tok ∈ tokens, ∀ p m, p ≤ string.length → MatchesAt E string p tok m →
      0 < m.rm_eo) :
    (∀ s s1 b, s.pos < string.length → iteration E string tokens s = .done s1 b →
      s.pos + 1 ≤ s1.pos) ∧
    (∀ s, loop E string tokens (string.length - s.pos + 1) s ≠ .aborted .outOfFuel) ∧
    (∀ tokenBuf : List (Option CStr),
      loop E string tokens (string.length + 1)
        { pos := 0, j := 0, tokenBuf := tokenBuf, out := [] } ≠ .aborted .outOfFuel ∧
      scan E string tokens tokenBuf =
        loop E string tokens (string.length + 1)
          { pos := 0, j := 0, tokenBuf := tokenBuf, out := [] }) := by
  have hadv : ∀ s s1 b, s.pos < string.length → iteration E string tokens s = .done s1 b →
      s.pos + 1 ≤ s1.pos := by
    intro s s1 b hpos hit
    have hge := skipSpace_ge string s.pos
    rcases iteration_done E string tokens s s1 b hit with
      ⟨_, hu, _⟩ | ⟨_, pre, tok, post, m, htok, _, hm, _, hu⟩
    · subst hu
      simp only
      omega
    · subst hu
      have hpos2 := hz tok (by simp [htok]) _ m
        (skipSpace_le string s.pos (Nat.le_of_lt hpos)) hm
      simp only [afterEmit]
      omega
  have hfuel : ∀ fuel s, string.length - s.pos < fuel →
      loop E string tokens fuel s ≠ .aborted .outOfFuel := by
    intro fuel
    induction fuel with
    | zero => intro s h; omega
    | succ fuel ih =>
      intro s h
      rcases Nat.lt_trichotomy s.pos string.length with hlt | heq | hgt
      · cases hit : iteration E string tokens s with
        | aborted a =>
          rw [loop_abort E string tokens fuel s a hlt hit]
          intro hc
          cases hc
          exact iteration_abort_not_budget E string tokens s _ hit rfl
        | done s1 b =>
          rw [loop_step E string tokens fuel s s1 b hlt hit]
          apply ih
          have := hadv s s1 b hlt hit
          omega
      · rw [loop_end E string tokens fuel s heq]
        simp
      · rw [loop_past E string tokens fuel s hgt]
        simp
  refine ⟨hadv, fun s => hfuel _ s (by omega), ?_⟩
  intro tokenBuf
  have h0 := hfuel (string.length + 1) { pos := 0, j := 0, tokenBuf := tokenBuf, out := [] }
    (by simp)
  refine ⟨h0, ?_⟩
  unfold scan
  rw [show string.length + tokenBuf.length + 1 = (string.length + 1) + tokenBuf.length by omega]
  exact loop_fuel_add E string tokens tokenBuf.length _ _ h0

/-- On the input `ab` with the rule `a`, which has no zero-length match, every
iteration advances and two iterations are enough. -/
theorem progress_without_empty_matches_example :
    (∀ s s1 b, s.pos < "ab".toList.length →
      iteration fragmentLib "ab".toList grammarA s = .done s1 b → s.pos + 1 ≤ s1.pos) ∧
    (∀ s, loop fragmentLib "ab".toList grammarA ("ab".toList.length - s.pos + 1) s ≠
      .aborted .outOfFuel) ∧
    (∀ tokenBuf : List (Option CStr),
      loop fragmentLib "ab".toList grammarA ("ab".toList.length + 1)
        { pos := 0, j := 0, tokenBuf := tokenBuf, out := [] } ≠ .aborted .outOfFuel ∧
      scan fragmentLib "ab".toList grammarA tokenBuf =
        loop fragmentLib "ab".toList grammarA ("ab".toList.length + 1)
          { pos := 0, j := 0, tokenBuf := tokenBuf, out := [] }) :=
  progress_without_empty_matches fragmentLib "ab".toList grammarA (by
    intro tok htok p m hp hm
    have ht : tok = ⟨"a".toList, "A".toList⟩ := by simpa [grammarA] using htok
    subst ht
    obtain ⟨_, hx, _⟩ := hm
    have hp2 : p ≤ 2 := hp
    have hx2 : fragmentLib.regexec "a".toList ("ab".toList.drop p) = some m := hx
    interval_cases p
    · have h0 : fragmentLib.regexec "a".toList ("ab".toList.drop 0) = some ⟨0, 1⟩ := by
        decide
      rw [h0] at hx2
      cases hx2
      decide
    · have h1 : fragmentLib.regexec "a".toList ("ab".toList.drop 1) = none := by decide
      rw [h1] at hx2
      cases hx2
    · have h2 : fragmentLib.regexec "a".toList ("ab".toList.drop 2) = none := by decide
      rw [h2] at hx2
      cases hx2)

/-- C17 fails on an input that ends in whitespace: on `a ` (length 2) with the rule
`a`, no rule has a zero-length match at any position, and both iterations advance the
cursor (from 0 to 1, then from 1 to 3), but the second one leaves it past the
terminating NUL, so after `L = 2` iterations the loop has not ended: its test reads
outside the input at position 3 and `matcher` does not return. -/
theorem overrun_after_all_iterations :
    "a ".toList.length = 2 ∧
    (∀ tok ∈ grammarA, ∀ p m, p ≤ 2 → MatchesAt fragmentLib "a ".toList p tok m →
      0 < m.rm_eo) ∧
    iteration fragmentLib "a ".toList grammarA start2 =
      .done { pos := 1, j := 1, tokenBuf := [some "a".toList, none],
              out := ["a\tA\n".toList] } true ∧
    iteration fragmentLib "a ".toList grammarA
        { pos := 1, j := 1, tokenBuf := [some "a".toList, none], out := ["a\tA\n".toList] } =
      .done { pos := 3, j := 1, tokenBuf := [some "a".toList, none],
              out := ["a\tA\n".toList] } false ∧
    loop fragmentLib "a ".toList grammarA 3 start2 = .aborted (.readOutOfBounds 3) ∧
    matcher fragmentLib "a ".toList grammarA [none, none] =
      .aborted (.readOutOfBounds 3) := by
  refine ⟨by decide, ?_, by decide, by decide, by decide, by decide⟩
  intro tok htok p m hp hm
  have ht : tok = ⟨"a".toList, "A".toList⟩ := by simpa [grammarA] using htok
  subst ht
  obtain ⟨_, hx, _⟩ := hm
  have hx2 : fragmentLib.regexec "a".toList ("a ".toList.drop p) = some m := hx
  interval_cases p
  · have h0 : fragmentLib.regexec "a".toList ("a ".toList.drop 0) = some ⟨0, 1⟩ := by
      decide
    rw [h0] at hx2
    cases hx2
    decide
  · have h1 : fragmentLib.regexec "a".toList ("a ".toList.drop 1) = none := by decide
    rw [h1] at hx2
    cases hx2
  · have h2 : fragmentLib.regexec "a".toList ("a ".toList.drop 2) = none := by decide
    rw [h2] at hx2
    cases hx2

/-! ## C18: whitespace is skipped before the rules are tried -/

theorem drop_takeWhile_length (p : Char → Bool) (l : CStr) :
    l.drop (l.takeWhile p).length = l.dropWhile p := by
  induction l with
  | nil => rfl
  | cons a l ih =>
    by_cases h : p a = true
    · simp [List.takeWhile_cons, List.dropWhile_cons, h, ih]
    · simp [List.takeWhile_cons, List.dropWhile_cons, h]

theorem skipSpace_stop (string : CStr) (q : Nat) (c : Char)
    (h : string[skipSpace string q]? = some c) : isspace c = false := by
  have h1 : (string.drop (skipSpace string q)).head? = some c := by
    rw [List.head?_drop]
    exact h
  simp only [skipSpace] at h1
  rw [← List.drop_drop, drop_takeWhile_length] at h1
  have h2 := List.head?_dropWhile_not isspace (string.drop q)
  rw [h1] at h2
  exact h2

/-! ## C19: leading whitespace -/

/-- On a non-empty input, whitespace put before the input shifts the cursor of the scan
and changes nothing else. -/
theorem scan_leading_whitespace (E : RegexLib) (w string : CStr) (tokens : List token_t)
    (tokenBuf : List (Option CStr)) (hw : ∀ c ∈ w, isspace c = true) (hs : string ≠ []) :
    SimOutcome w.length (scan E string tokens tokenBuf)
      (scan E (w ++ string) tokens tokenBuf) := by
  have hbud := scan_budget E string tokens tokenBuf
  unfold scan at hbud ⊢
  have hpos1 : 0 < string.length := List.length_pos.mpr hs
  have hL : (w ++ string).length = string.length + w.length := by
    rw [List.length_append]
    omega
  have hit := iteration_sim E w string tokens
    { pos := 0, j := 0, tokenBuf := tokenBuf, out := [] }
    { pos := 0, j := 0, tokenBuf := tokenBuf, out := [] }
    ⟨skipSpace_leading w string hw, rfl, rfl, rfl, rfl⟩
  rw [hL, show string.length + w.length + tokenBuf.length + 1 =
    (string.length + tokenBuf.length + w.length) + 1 by omega]
  cases h1 : iteration E string tokens { pos := 0, j := 0, tokenBuf := tokenBuf, out := [] } with
  | aborted a1 =>
    cases h2 : iteration E (w ++ string) tokens
        { pos := 0, j := 0, tokenBuf := tokenBuf, out := [] } with
    | aborted a2 =>
      rw [h1, h2] at hit
      rw [loop_abort E string tokens _ _ a1 hpos1 h1,
        loop_abort E (w ++ string) tokens _ _ a2 (by simp only [hL]; omega) h2]
      exact hit
    | done u2 b2 =>
      rw [h1, h2] at hit
      exact hit.elim
  | done u1 b1 =>
    cases h2 : iteration E (w ++ string) tokens
        { pos := 0, j := 0, tokenBuf := tokenBuf, out := [] } with
    | aborted a2 =>
      rw [h1, h2] at hit
      exact hit.elim
    | done u2 b2 =>
      rw [h1, h2] at hit
      rw [loop_step E string tokens _ _ u1 b1 hpos1 h1] at hbud ⊢
      rw [loop_step E (w ++ string) tokens _ _ u2 b2 (by simp only [hL]; omega) h2]
      rw [← loop_fuel_add E string tokens w.length _ u1 hbud]
      exact loop_sim E w string tokens _ u1 u2 hit.2

/-- On a non-empty input with a non-empty grammar, `matcher` returns for the input
preceded by whitespace exactly when it returns for the input itself, with the same
buffer and the same output. -/
theorem matcher_leading_whitespace (E : RegexLib) (w string : CStr) (tokens : List token_t)
    (tokenBuf : List (Option CStr)) (hw : ∀ c ∈ w, isspace c = true) (hs : string ≠ [])
    (ht : tokens ≠ []) :
    (∀ r1, matcher E string tokens tokenBuf = .returned r1 →
      ∃ r2, matcher E (w ++ string) tokens tokenBuf = .returned r2 ∧
        r2.tokenBuf = r1.tokenBuf ∧ r2.out = r1.out) ∧
    (∀ r2, matcher E (w ++ string) tokens tokenBuf = .returned r2 →
      ∃ r1, matcher E string tokens tokenBuf = .returned r1 ∧
        r2.tokenBuf = r1.tokenBuf ∧ r2.out = r1.out) := by
  have key := scan_leading_whitespace E w string tokens tokenBuf hw hs
  have hs2 : w ++ string ≠ [] := by
    intro hc
    exact hs (List.append_eq_nil.mp hc).2
  rw [matcher_of_scan E string tokens tokenBuf hs ht,
    matcher_of_scan E (w ++ string) tokens tokenBuf hs2 ht]
  cases h1 : scan E string tokens tokenBuf with
  | returned u1 =>
    cases h2 : scan E (w ++ string) tokens tokenBuf with
    | returned u2 =>
      rw [h1, h2] at key
      have hf := fillNull_sim _ u1 u2 key
      refine ⟨fun r1 hr1 => ?_, fun r2 hr2 => ?_⟩
      · cases hr1
        exact ⟨fillNull u2, rfl, hf.1, hf.2.1⟩
      · cases hr2
        exact ⟨fillNull u1, rfl, hf.1, hf.2.1⟩
    | aborted a2 =>
      rw [h1, h2] at key
      exact key.elim
  | aborted a1 =>
    cases h2 : scan E (w ++ string) tokens tokenBuf with
    | returned u2 =>
      rw [h1, h2] at key
      exact key.elim
    | aborted a2 =>
      refine ⟨fun r1 hr1 => ?_, fun r2 hr2 => ?_⟩
      · cases hr1
      · cases hr2

/-- C19 fails when the input is empty: on the empty input `matcher` returns at once
with no token, while on one blank (the empty input preceded by whitespace) the scan
skips the blank, tries the rule `a` with the cursor on the terminating NUL, moves the
cursor past it and ends on the read at position 2 instead of returning. -/
theorem blank_before_empty_input :
    (∀ c ∈ " ".toList, isspace c = true) ∧
    matcher fragmentLib [] grammarA [none] =
      .returned { pos := 0, j := 0, tokenBuf := [none], out := [] } ∧
    matcher fragmentLib (" ".toList ++ []) grammarA [none] =
      .aborted (.readOutOfBounds 2) := by
  refine ⟨by decide, by decide, by decide⟩

/-! ## C20: `freeTokens` -/

theorem freeLoop_index (toks : List (Option CStr)) :
    ∀ (i n : Nat), (freeLoop toks i n).map Prod.fst =
      List.range' i (min (n - i) (toks.takeWhile Option.isSome).length) := by
  induction toks with
  | nil => intro i n; simp [freeLoop]
  | cons x rest ih =>
    intro i n
    cases x with
    | none => simp [freeLoop]
    | some t =>
      by_cases hlt : i < n
      · simp only [freeLoop, hlt, if_true, List.map_cons, ih, List.takeWhile_cons,
          Option.isSome_some, List.length_cons]
        rw [show min (n - i) ((rest.takeWhile Option.isSome).length + 1) =
          min (n - (i + 1)) (rest.takeWhile Option.isSome).length + 1 by omega,
          List.range'_succ]
      · simp only [freeLoop, hlt, if_false, List.map_nil]
        rw [show min (n - i) ((List.takeWhile Option.isSome (some t :: rest)).length) = 0 by
          have : n - i = 0 := by omega
          rw [this, Nat.zero_min]]
        rfl

theorem freeLoop_entry (toks : List (Option CStr)) :
    ∀ (i n : Nat) (x : Nat × CStr), x ∈ freeLoop toks i n →
      i ≤ x.1 ∧ toks[x.1 - i]? = some (some x.2) := by
  induction toks with
  | nil => intro i n x hx; simp [freeLoop] at hx
  | cons y rest ih =>
    intro i n x hx
    cases y with
    | none => simp [freeLoop] at hx
    | some t =>
      by_cases hlt : i < n
      · simp only [freeLoop, hlt, if_true, List.mem_cons] at hx
        rcases hx with rfl | hx
        · simp
        · obtain ⟨hle, hget⟩ := ih (i + 1) n x hx
          refine ⟨by omega, ?_⟩
          rw [show x.1 - i = (x.1 - (i + 1)) + 1 by omega, List.getElem?_cons_succ]
          exact hget
      · simp [freeLoop, hlt] at hx

theorem freeLoop_filled (texts : List CStr) (k : Nat) :
    ∀ (i n : Nat), i + texts.length ≤ n →
      freeLoop (texts.map some ++ List.replicate k none) i n =
        (List.range' i texts.length).zip texts := by
  induction texts with
  | nil =>
    intro i n _
    cases k with
    | zero => simp [freeLoop]
    | succ k => simp [List.replicate_succ, freeLoop]
  | cons t texts ih =>
    intro i n h
    simp only [List.length_cons] at h
    have hlt : i < n := by omega
    simp only [List.map_cons, List.cons_append, freeLoop, hlt, if_true, List.length_cons,
      List.range'_succ, List.zip_cons_cons]
    exact congrArg (List.cons (i, t)) (ih (i + 1) n (by omega))

/-- C20: on a non-empty input with a grammar of at least one rule, when `matcher`
returns having produced the `k` tokens `texts`, the buffer holds them followed by
`NULL` entries and `freeTokens(tokenBuf, nbuf)` calls `free` on entry 0, entry 1, ...,
entry `k - 1`, each once and in this order, and on nothing else. In general
`freeTokens(toks, n)` releases the entries at the indices below the smaller of `n`
and the index of the first `NULL` entry, in index order. -/
theorem freeTokens_releases_produced (E : RegexLib) (string : CStr)
    (tokens : List token_t) (tokenBuf : List (Option CStr)) (r : State)
    (hs : string ≠ []) (ht : 1 ≤ tokens.length)
    (h : matcher E string tokens tokenBuf = .returned r) :
    (∃ (s : State) (texts : List CStr),
      scan E string tokens tokenBuf = .returned s ∧ texts.length = s.j ∧
      s.j ≤ tokenBuf.length ∧
      s.tokenBuf.take s.j = texts.map some ∧
      r.tokenBuf = texts.map some ++ List.replicate (tokenBuf.length - s.j) none ∧
      freeTokens r.tokenBuf tokenBuf.length = (List.range s.j).zip texts) ∧
    (∀ (toks : List (Option CStr)) (n : Nat), n ≤ toks.length →
      (freeTokens toks n).map Prod.fst =
        List.range (min n (toks.takeWhile Option.isSome).length) ∧
      ∀ x ∈ freeTokens toks n, toks[x.1]? = some (some x.2)) := by
  refine ⟨?_, ?_⟩
  · rcases matcher_returned E string tokens tokenBuf r h with ⟨hearly, _⟩ | ⟨_, _, s, hsc, hr⟩
    · rcases hearly with h1 | h1
      · exact absurd h1 hs
      · omega
    · obtain ⟨⟨tr, hT⟩, hlen, _⟩ := scan_traced E string tokens tokenBuf s hsc
      have hcap := traced_capacity E string tokens s tr hT
      obtain ⟨htl, hbuf, _, _⟩ := hT
      have hmap : tr.map (fun e => some (Emission.text string e)) =
          (tr.map (Emission.text string)).map some := by
        rw [List.map_map]
        rfl
      have hrbuf : r.tokenBuf = (tr.map (Emission.text string)).map some ++
          List.replicate (tokenBuf.length - s.j) none := by
        rw [hr]
        simp only [fillNull, hbuf, hmap, hlen]
      refine ⟨s, tr.map (Emission.text string), hsc, by simp [htl], by omega,
        by rw [hbuf, hmap], hrbuf, ?_⟩
      rw [hrbuf, freeTokens, freeLoop_filled _ _ 0 _ (by simp [htl]; omega),
        List.range_eq_range']
      simp [htl]
  · intro toks n _
    refine ⟨?_, ?_⟩
    · rw [freeTokens, freeLoop_index, List.range_eq_range']
      simp
    · intro x hx
      have := (freeLoop_entry toks 0 n x hx).2
      simpa using this

/-- C20 on the rules `ab`, `c`, the input `ab c` and a buffer of four entries:
`freeTokens` releases entry 0 and entry 1. -/
theorem freeTokens_releases_produced_witness :
    ((freeTokens [some "ab".toList, none, some "c".toList] 3).map Prod.fst =
        List.range (min 3 ([some "ab".toList, none, some "c".toList].takeWhile
          Option.isSome).length) ∧
      ∀ x ∈ freeTokens [some "ab".toList, none, some "c".toList] 3,
        [some "ab".toList, none, some "c".toList][x.1]? = some (some x.2)) ∧
    ∃ (s : State) (texts : List CStr),
      scan fragmentLib "ab c".toList grammarAbC [none, none, none, none] = .returned s ∧
      texts.length = s.j ∧ s.j ≤ 4 ∧
      s.tokenBuf.take s.j = texts.map some ∧
      [(some "ab".toList : Option CStr), some "c".toList, none, none] =
        texts.map some ++ List.replicate (4 - s.j) none ∧
      freeTokens [some "ab".toList, some "c".toList, none, none] 4 =
        (List.range s.j).zip texts :=
  have h := freeTokens_releases_produced fragmentLib "ab c".toList grammarAbC
    [none, none, none, none]
    { pos := 4, j := 4, tokenBuf := [some "ab".toList, some "c".toList, none, none],
      out := ["ab\tAB\n".toList, "c\tC\n".toList] } (by decide) (by decide) (by decide)
  ⟨h.2 [some "ab".toList, none, some "c".toList] 3 (by decide), h.1⟩

/-! ## The states a run passes through -/

theorem afterIterations_succ (E : RegexLib) (string : CStr) (tokens : List token_t)
    (n : Nat) (s s1 : State) (b : Bool) (hpos : s.pos < string.length)
    (hit : iteration E string tokens s = .done s1 b) :
    afterIterations E string tokens (n + 1) s = afterIterations E string tokens n s1 := by
  simp only [afterIterations, hpos, if_true, hit]

/-- A property of the state that every non-aborting iteration preserves holds after any
number of iterations. -/
theorem afterIterations_invariant (E : RegexLib) (string : CStr) (tokens : List token_t)
    (P : State → Prop)
    (hstep : ∀ s s1 b, s.pos < string.length → P s →
      iteration E string tokens s = .done s1 b → P s1) :
    ∀ n s u, P s → afterIterations E string tokens n s = some u → P u := by
  intro n
  induction n with
  | zero =>
    intro s u hP h
    simp only [afterIterations, Option.some.injEq] at h
    rw [← h]
    exact hP
  | succ n ih =>
    intro s u hP h
    by_cases hpos : s.pos < string.length
    · cases hit : iteration E string tokens s with
      | aborted a => simp [afterIterations, hpos, hit] at h
      | done s1 b =>
        rw [afterIterations_succ E string tokens n s s1 b hpos hit] at h
        exact ih s1 u (hstep s s1 b hpos hP hit) h
    · simp [afterIterations, hpos] at h

/-- Every run of the loop that does not exhaust its budget ends in a state it reaches
after some number of complete iterations: it returns that state, or reads past the NUL
there, or aborts inside the iteration entered there. -/
theorem loop_ends (E : RegexLib) (string : CStr) (tokens : List token_t) :
    ∀ fuel s, loop E string tokens fuel s = .aborted .outOfFuel ∨
      ∃ n u, afterIterations E string tokens n s = some u ∧
        ((u.pos = string.length ∧ loop E string tokens fuel s = .returned u) ∨
         (string.length < u.pos ∧
            loop E string tokens fuel s = .aborted (.readOutOfBounds u.pos)) ∨
         (u.pos < string.length ∧ ∃ a, iteration E string tokens u = .aborted a ∧
            loop E string tokens fuel s = .aborted a)) := by
  intro fuel
  induction fuel with
  | zero => intro s; exact Or.inl rfl
  | succ fuel ih =>
    intro s
    rcases Nat.lt_trichotomy s.pos string.length with hlt | heq | hgt
    · cases hit : iteration E string tokens s with
      | aborted a =>
        exact Or.inr ⟨0, s, rfl, Or.inr (Or.inr ⟨hlt, a, hit,
          loop_abort E string tokens fuel s a hlt hit⟩)⟩
      | done s1 b =>
        rw [loop_step E string tokens fuel s s1 b hlt hit]
        rcases ih s1 with h | ⟨n, u, hn, hu⟩
        · exact Or.inl h
        · exact Or.inr ⟨n + 1, u, by
            rw [afterIterations_succ E string tokens n s s1 b hlt hit]
            exact hn, hu⟩
    · exact Or.inr ⟨0, s, rfl, Or.inl ⟨heq, loop_end E string tokens fuel s heq⟩⟩
    · exact Or.inr ⟨0, s, rfl, Or.inr (Or.inl ⟨hgt, loop_past E string tokens fuel s hgt⟩)⟩

/-- Every run of `matcher` is the early return, or ends in a state the scan reaches after
some number of complete iterations: `matcher` returns the NULL fill of that state, or
the run reads past the NUL there, or it aborts inside the iteration entered there. -/
theorem matcher_ends (E : RegexLib) (string : CStr) (tokens : List token_t)
    (tokenBuf : List (Option CStr)) :
    ((string = [] ∨ tokens.length < 1) ∧
      matcher E string tokens tokenBuf =
        .returned { pos := 0, j := 0, tokenBuf := tokenBuf, out := [] }) ∨
    ∃ n u, afterIterations E string tokens n
        { pos := 0, j := 0, tokenBuf := tokenBuf, out := [] } = some u ∧
      ((u.pos = string.length ∧ matcher E string tokens tokenBuf = .returned (fillNull u)) ∨
       (string.length < u.pos ∧
          matcher E string tokens tokenBuf = .aborted (.readOutOfBounds u.pos)) ∨
       (u.pos < string.length ∧ ∃ a, iteration E string tokens u = .aborted a ∧
          matcher E string tokens tokenBuf = .aborted a)) := by
  by_cases hearly : string = [] ∨ tokens.length < 1
  · exact Or.inl ⟨hearly, by simp only [matcher, if_pos hearly]⟩
  · right
    have hm : matcher E string tokens tokenBuf =
        match scan E string tokens tokenBuf with
        | .returned s => .returned (fillNull s)
        | .aborted a => .aborted a := by
      simp only [matcher, if_neg hearly]
    have hb := scan_budget E string tokens tokenBuf
    unfold scan at hb hm
    rcases loop_ends E string tokens (string.length + tokenBuf.length + 1)
        { pos := 0, j := 0, tokenBuf := tokenBuf, out := [] } with h | ⟨n, u, hn, hu⟩
    · exact absurd h hb
    · refine ⟨n, u, hn, ?_⟩
      rcases hu with ⟨h1, h2⟩ | ⟨h1, h2⟩ | ⟨h1, a, h2, h3⟩
      · exact Or.inl ⟨h1, by rw [hm, h2]⟩
      · exact Or.inr (Or.inl ⟨h1, by rw [hm, h2]⟩)
      · exact Or.inr (Or.inr ⟨h1, a, h2, by rw [hm, h3]⟩)

/-- What has been stored and printed after any number of iterations of the scan is what
a sequence of emissions produces. -/
theorem afterIterations_traced (E : RegexLib) (string : CStr) (tokens : List token_t)
    (tokenBuf : List (Option CStr)) (n : Nat) (u : State)
    (h : afterIterations E string tokens n
      { pos := 0, j := 0, tokenBuf := tokenBuf, out := [] } = some u) :
    (∃ tr, Traced E string tokens u tr) ∧ u.tokenBuf.length = tokenBuf.length := by
  have key := afterIterations_invariant E string tokens
    (fun u => (u.tokenBuf.length = tokenBuf.length ∧ u.j ≤ tokenBuf.length) ∧
      ∃ tr, Traced E string tokens u tr)
    (by
      intro u u1 b hpos hP hit
      obtain ⟨hcap, tr, hT⟩ := hP
      exact ⟨iteration_capacity E string tokens tokenBuf.length u u1 b hcap hit,
        iteration_traced E string tokens u u1 b tr hpos hT hit⟩)
    n _ u ⟨⟨rfl, Nat.zero_le _⟩, [], rfl, by simp, by simp, by simp⟩ h
  exact ⟨key.2, key.1.1⟩

/-! ## C11: the diagnostic lines, for every run -/

/-- C11: in every run of `matcher`, whatever the input, the grammar and the way the run
ends, the lines printed by line 76 are in one-to-one correspondence, in the same order,
with the tokens stored. After any number of iterations of the scan there is a sequence
of emissions (a rule of the grammar that matched anchored at a cursor of the scan) such
that the first `j` entries of the buffer are the texts of the emissions and the output
is exactly one line per emission: the text, a TAB, the name of the rule, a newline;
nothing else has been printed. Every run is the early return (no token, no line) or
ends in such a state: `matcher` returns it after the NULL fill, or the run leaves the
input or the buffer there, or it ends there in `regexException`, which then prints the
message of `regerror`. And every iteration that does not abort, on whatever string the
cursor is in and from whatever state, either stores nothing and prints nothing, or
stores one token at index `j` and prints the one line of that token. -/
theorem diagnostic_lines_follow_tokens (E : RegexLib) (string : CStr)
    (tokens : List token_t) (tokenBuf : List (Option CStr)) :
    (∀ n u, afterIterations E string tokens n
        { pos := 0, j := 0, tokenBuf := tokenBuf, out := [] } = some u →
      ∃ tr : List Emission, tr.length = u.j ∧
        u.tokenBuf.take u.j = tr.map (fun e => some ((string.drop e.1).take e.2.2.rm_eo)) ∧
        u.out = tr.map (fun e => (string.drop e.1).take e.2.2.rm_eo ++
          '\t' :: e.2.1.name ++ ['\n']) ∧
        u.out.length = u.j ∧
        ∀ e ∈ tr, e.2.1 ∈ tokens ∧ MatchesAt E string e.1 e.2.1 e.2.2) ∧
    (((string = [] ∨ tokens.length < 1) ∧
        matcher E string tokens tokenBuf =
          .returned { pos := 0, j := 0, tokenBuf := tokenBuf, out := [] }) ∨
      ∃ n u, afterIterations E string tokens n
          { pos := 0, j := 0, tokenBuf := tokenBuf, out := [] } = some u ∧
        ((u.pos = string.length ∧
            matcher E string tokens tokenBuf = .returned (fillNull u) ∧
            (fillNull u).out = u.out ∧
            (fillNull u).tokenBuf.take u.j = u.tokenBuf.take u.j) ∨
         (string.length < u.pos ∧
            matcher E string tokens tokenBuf = .aborted (.readOutOfBounds u.pos)) ∨
         (u.pos < string.length ∧ ∃ a, iteration E string tokens u = .aborted a ∧
            matcher E string tokens tokenBuf = .aborted a ∧
            (a = .storeOutOfBounds u.j ∨ ∃ status, a =
              .regexException status (E.regerror status))))) ∧
    (∀ (str : CStr) (s s1 : State) (b : Bool), iteration E str tokens s = .done s1 b →
      (b = false ∧ s1.j = s.j ∧ s1.tokenBuf = s.tokenBuf ∧ s1.out = s.out) ∨
      (b = true ∧ ∃ tok ∈ tokens, ∃ t : CStr, s1.j = s.j + 1 ∧
        s1.tokenBuf = s.tokenBuf.set s.j (some t) ∧
        s1.out = s.out ++ [t ++ '\t' :: tok.name ++ ['\n']])) := by
  refine ⟨?_, ?_, ?_⟩
  rotate_left 2
  · intro str s s1 b hit
    rcases iteration_done E str tokens s s1 b hit with
      ⟨hb, hu, _⟩ | ⟨hb, pre, tok, post, m, htok, _, _, _, hu⟩
    · subst hu
      exact Or.inl ⟨hb, rfl, rfl, rfl⟩
    · subst hu
      exact Or.inr ⟨hb, tok, by simp [htok], (str.drop (skipSpace str s.pos)).take m.rm_eo,
        rfl, rfl, rfl⟩
  · intro n u h
    obtain ⟨⟨tr, hlen, hbuf, hout, hall⟩, _⟩ :=
      afterIterations_traced E string tokens tokenBuf n u h
    refine ⟨tr, hlen, hbuf, hout, ?_, fun e he => ⟨(hall e he).1, (hall e he).2.1⟩⟩
    rw [hout, List.length_map, hlen]
  · rcases matcher_ends E string tokens tokenBuf with h | ⟨n, u, hn, hu⟩
    · exact Or.inl h
    · refine Or.inr ⟨n, u, hn, ?_⟩
      rcases hu with ⟨h1, h2⟩ | ⟨h1, h2⟩ | ⟨h1, a, h2, h3⟩
      · obtain ⟨⟨tr, hT⟩, _⟩ := afterIterations_traced E string tokens tokenBuf n u hn
        exact Or.inl ⟨h1, h2, rfl,
          fillNull_take u (traced_capacity E string tokens u tr hT)⟩
      · exact Or.inr (Or.inl ⟨h1, h2⟩)
      · refine Or.inr (Or.inr ⟨h1, a, h2, h3, ?_⟩)
        obtain ⟨_, tok, _, _, _, hcase⟩ :=
          ruleLoop_aborted E string tokens _ a (iteration_aborted E string tokens u a h2)
        rcases hcase with ⟨_, ha⟩ | ⟨_, _, _, ha⟩
        · exact Or.inr ⟨_, ha⟩
        · exact Or.inl ha

/-- C11 on the rules `a`, `(` and the input `ab`, a run that ends in `regexException`:
after one iteration one token is stored and one line is printed, and the iteration
entered there aborts on the pattern `(`. -/
theorem diagnostic_lines_follow_tokens_witness :
    (∃ tr : List Emission, tr.length = 1 ∧
      [(some "a".toList : Option CStr), none].take 1 =
        tr.map (fun e => some (("ab".toList.drop e.1).take e.2.2.rm_eo)) ∧
      ["a\tA\n".toList] = tr.map (fun e => ("ab".toList.drop e.1).take e.2.2.rm_eo ++
        '\t' :: e.2.1.name ++ ['\n']) ∧
      ["a\tA\n".toList].length = 1 ∧
      ∀ e ∈ tr, e.2.1 ∈ grammarAParen ∧ MatchesAt fragmentLib "ab".toList e.1 e.2.1 e.2.2) ∧
    iteration fragmentLib "ab".toList grammarAParen
        { pos := 1, j := 1, tokenBuf := [some "a".toList, none], out := ["a\tA\n".toList] } =
      .aborted (.regexException 8 "Unmatched ( or \\(".toList) ∧
    matcher fragmentLib "ab".toList grammarAParen [none, none] =
      .aborted (.regexException 8 "Unmatched ( or \\(".toList) :=
  ⟨(diagnostic_lines_follow_tokens fragmentLib "ab".toList grammarAParen [none, none]).1 1
      { pos := 1, j := 1, tokenBuf := [some "a".toList, none], out := ["a\tA\n".toList] }
      (by decide),
    by decide, by decide⟩

/-! ## C18: the positions at which the rules are tried, for every run -/

/-- C18: in every run, the rules are tried after the whitespace skip of line 54, that
is with the cursor at `skipSpace string pos`, which is at most `L` and, when below `L`,
holds a character that is not whitespace. After any number of iterations of the scan,
whatever the way the run ends later, every token stored so far is the text of a match
found with the cursor on the end of the input or on a character that is not
whitespace, and so is empty or begins with a character that is not whitespace. Every
run of `matcher` is the early return or ends in such a state. And every iteration that
stores a token, on whatever string the cursor is in and from whatever state, stores a
token that is empty or begins with a character that is not whitespace. -/
theorem trials_start_after_whitespace (E : RegexLib) (string : CStr)
    (tokens : List token_t) (tokenBuf : List (Option CStr)) :
    (∀ q, q ≤ string.length →
      skipSpace string q ≤ string.length ∧
      ∀ c, string[skipSpace string q]? = some c → isspace c = false) ∧
    (∀ n u, afterIterations E string tokens n
        { pos := 0, j := 0, tokenBuf := tokenBuf, out := [] } = some u →
      (∃ tr : List Emission, tr.length = u.j ∧
        u.tokenBuf.take u.j = tr.map (fun e => some ((string.drop e.1).take e.2.2.rm_eo)) ∧
        ∀ e ∈ tr, MatchesAt E string e.1 e.2.1 e.2.2 ∧ e.1 ≤ string.length ∧
          ∀ c, string[e.1]? = some c → isspace c = false) ∧
      (∀ i t c, i < u.j → u.tokenBuf[i]? = some (some t) → t.head? = some c →
        isspace c = false)) ∧
    (((string = [] ∨ tokens.length < 1) ∧
        matcher E string tokens tokenBuf =
          .returned { pos := 0, j := 0, tokenBuf := tokenBuf, out := [] }) ∨
      ∃ n u, afterIterations E string tokens n
          { pos := 0, j := 0, tokenBuf := tokenBuf, out := [] } = some u ∧
        ((u.pos = string.length ∧
            matcher E string tokens tokenBuf = .returned (fillNull u)) ∨
         (string.length < u.pos ∧
            matcher E string tokens tokenBuf = .aborted (.readOutOfBounds u.pos)) ∨
         (u.pos < string.length ∧ ∃ a, iteration E string tokens u = .aborted a ∧
            matcher E string tokens tokenBuf = .aborted a))) ∧
    (∀ (str : CStr) (s s1 : State), iteration E str tokens s = .done s1 true →
      ∃ t : CStr, s1.j = s.j + 1 ∧ s1.tokenBuf = s.tokenBuf.set s.j (some t) ∧
        ∀ c, t.head? = some c → isspace c = false) := by
  refine ⟨fun q hq => ⟨skipSpace_le string q hq, fun c hc => skipSpace_stop string q c hc⟩,
    ?_, matcher_ends E string tokens tokenBuf, ?_⟩
  rotate_left 1
  · intro str s s1 hit
    rcases iteration_done E str tokens s s1 true hit with
      ⟨hb, _, _⟩ | ⟨_, pre, tok, post, m, _, _, _, _, hu⟩
    · cases hb
    · subst hu
      refine ⟨(str.drop (skipSpace str s.pos)).take m.rm_eo, rfl, rfl, ?_⟩
      intro c hc
      simp only [List.head?_take] at hc
      split at hc
      · cases hc
      · rw [List.head?_drop] at hc
        exact skipSpace_stop str s.pos c hc
  intro n u h
  obtain ⟨⟨tr, hlen, hbuf, _, hall⟩, _⟩ := afterIterations_traced E string tokens tokenBuf n u h
  have hem : ∀ e ∈ tr, MatchesAt E string e.1 e.2.1 e.2.2 ∧ e.1 ≤ string.length ∧
      ∀ c, string[e.1]? = some c → isspace c = false := by
    intro e he
    obtain ⟨_, hm, q, hq, heq⟩ := hall e he
    refine ⟨hm, ?_, ?_⟩
    · rw [heq]
      exact skipSpace_le string q (Nat.le_of_lt hq)
    · intro c hc
      rw [heq] at hc
      exact skipSpace_stop string q c hc
  refine ⟨⟨tr, hlen, hbuf, hem⟩, ?_⟩
  intro i t c hi hti hc
  have h1 : (u.tokenBuf.take u.j)[i]? = some (some t) := by
    rw [List.getElem?_take_of_lt hi]
    exact hti
  rw [hbuf, List.getElem?_map] at h1
  cases he : tr[i]? with
  | none => rw [he] at h1; cases h1
  | some e =>
    rw [he] at h1
    simp only [Option.map_some', Option.some.injEq] at h1
    rw [← h1] at hc
    simp only [Emission.text, List.head?_take] at hc
    split at hc
    · cases hc
    · rw [List.head?_drop] at hc
      exact (hem e (List.getElem?_mem he)).2.2 c hc

/-- C18 on the rules `ab`, `c` and the input `ab c `, which ends in a blank: after
three iterations the cursor has passed the NUL, and the two tokens stored begin with
characters that are not whitespace. -/
theorem trials_start_after_whitespace_witness :
    (∃ tr : List Emission, tr.length = 2 ∧
      [(some "ab".toList : Option CStr), some "c".toList, none].take 2 =
        tr.map (fun e => some (("ab c ".toList.drop e.1).take e.2.2.rm_eo)) ∧
      ∀ e ∈ tr, MatchesAt fragmentLib "ab c ".toList e.1 e.2.1 e.2.2 ∧
        e.1 ≤ "ab c ".toList.length ∧
        ∀ c, "ab c ".toList[e.1]? = some c → isspace c = false) ∧
    (∀ i t c, i < 2 →
      [(some "ab".toList : Option CStr), some "c".toList, none][i]? = some (some t) →
      t.head? = some c → isspace c = false) :=
  (trials_start_after_whitespace fragmentLib "ab c ".toList grammarAbC
    [none, none, none]).2.1 3
    { pos := 6, j := 2, tokenBuf := [some "ab".toList, some "c".toList, none],
      out := ["ab\tAB\n".toList, "c\tC\n".toList] } (by decide)

/-! ## C8: the same scan with less room -/

/-- A run of the loop that returns, compared with the run from a state that differs only
in the size of the buffer (`n2` entries): as long as the index `j` is below `n2` the two
runs do the same; when the first run produces more than `n2` tokens, the second one
stores the token with index `n2` outside its buffer. -/
theorem loop_smaller_buffer (E : RegexLib) (string : CStr) (tokens : List token_t)
    (n2 : Nat) :
    ∀ (fuel : Nat) (sA sB rA : State), sB.pos = sA.pos → sB.j = sA.j → sB.out = sA.out →
      sB.tokenBuf.length = n2 → sA.j ≤ n2 →
      sB.tokenBuf.take sB.j = sA.tokenBuf.take sA.j → sA.j ≤ sA.tokenBuf.length →
      loop E string tokens fuel sA = .returned rA →
      (rA.j ≤ n2 → ∃ rB, loop E string tokens fuel sB = .returned rB ∧ rB.j = rA.j ∧
        rB.out = rA.out ∧ rB.tokenBuf.take rB.j = rA.tokenBuf.take rA.j ∧
        rB.tokenBuf.length = n2) ∧
      (n2 < rA.j → loop E string tokens fuel sB = .aborted (.storeOutOfBounds n2)) := by
  intro fuel
  induction fuel with
  | zero =>
    intro sA sB rA _ _ _ _ _ _ _ h
    simp [loop] at h
  | succ fuel ih =>
    intro sA sB rA hpos hj hout hlen hcap htake hcapA h
    rcases Nat.lt_trichotomy sA.pos string.length with hlt | heq | hgt
    · have hltB : sB.pos < string.length := by omega
      cases hit : iteration E string tokens sA with
      | aborted a =>
        rw [loop_abort E string tokens fuel sA a hlt hit] at h
        cases h
      | done uA b =>
        rw [loop_step E string tokens fuel sA uA b hlt hit] at h
        rcases iteration_done E string tokens sA uA b hit with
          ⟨_, hu, hall⟩ | ⟨_, pre, tok, post, m, htok, hpre, hm, hjA, hu⟩
        · subst hu
          have hitB := iteration_none E string tokens sB (by rw [hpos]; exact hall)
          rw [loop_step E string tokens fuel sB _ false hltB hitB]
          exact ih { sA with pos := skipSpace string sA.pos + 1 }
            { sB with pos := skipSpace string sB.pos + 1 } rA (by simp only [hpos])
            hj hout hlen hcap htake hcapA h
        · subst hu
          subst htok
          by_cases hjB : sB.j < sB.tokenBuf.length
          · have hitB := iteration_match E string pre tok post sB m
              (by rw [hpos]; exact hpre) (by rw [hpos]; exact hm) hjB
            rw [loop_step E string (pre ++ tok :: post) fuel sB _ true hltB hitB]
            refine ih (afterEmit string tok (skipSpace string sA.pos) m.rm_eo sA)
              (afterEmit string tok (skipSpace string sB.pos) m.rm_eo sB) rA
              (by simp only [afterEmit, hpos]) (by simp only [afterEmit, hj])
              (by simp only [afterEmit, hout, hpos]) (by simp only [afterEmit, List.length_set, hlen])
              (by simp only [afterEmit]; omega) ?_
              (by simp only [afterEmit, List.length_set]; omega) h
            simp only [afterEmit, hpos]
            rw [take_succ_set sB.tokenBuf sB.j _ hjB, take_succ_set sA.tokenBuf sA.j _ hjA, htake]
          · have hitB := iteration_overflow E string pre tok post sB m
              (by rw [hpos]; exact hpre) (by rw [hpos]; exact hm) hjB
            rw [loop_abort E string (pre ++ tok :: post) fuel sB _ hltB hitB]
            have hfr := loop_frame E string (pre ++ tok :: post) fuel _ rA
              (by simp only [afterEmit, List.length_set]; omega) h
            have hge : sA.j + 1 ≤ rA.j := by
              have := hfr.2.1
              simpa only [afterEmit] using this
            have hjn : sB.j = n2 := by omega
            refine ⟨fun hle => ?_, fun _ => by rw [hjn]⟩
            omega
    · rw [loop_end E string tokens fuel sA heq] at h
      cases h
      rw [loop_end E string tokens fuel sB (by omega)]
      exact ⟨fun _ => ⟨sB, rfl, hj, hout, htake, hlen⟩, fun hgt => by omega⟩
    · rw [loop_past E string tokens fuel sA hgt] at h
      cases h

theorem afterIterations_index_mono (E : RegexLib) (string : CStr) (tokens : List token_t)
    (n : Nat) (s u : State) (h : afterIterations E string tokens n s = some u) :
    s.j ≤ u.j := by
  refine afterIterations_invariant E string tokens (fun v => s.j ≤ v.j) ?_ n s u
    (Nat.le_refl _) h
  intro v v1 b _ hP hit
  rcases iteration_done E string tokens v v1 b hit with
    ⟨_, hu, _⟩ | ⟨_, _, _, _, _, _, _, _, _, hu⟩
  · subst hu
    exact hP
  · subst hu
    simp only [afterEmit]
    omega

/-- A run that has made `m` complete iterations goes on as the run from the state it
has reached. -/
theorem loop_after (E : RegexLib) (string : CStr) (tokens : List token_t) :
    ∀ (m fuel : Nat) (s u : State), afterIterations E string tokens m s = some u →
      loop E string tokens (fuel + m) s = loop E string tokens fuel u := by
  intro m
  induction m with
  | zero =>
    intro fuel s u h
    simp only [afterIterations, Option.some.injEq] at h
    rw [h]
    rfl
  | succ m ih =>
    intro fuel s u h
    by_cases hpos : s.pos < string.length
    · cases hit : iteration E string tokens s with
      | aborted a => simp [afterIterations, hpos, hit] at h
      | done s1 b =>
        rw [afterIterations_succ E string tokens m s s1 b hpos hit] at h
        rw [show fuel + (m + 1) = (fuel + m) + 1 by omega,
          loop_step E string tokens (fuel + m) s s1 b hpos hit]
        exact ih fuel s1 u h
    · simp [afterIterations, hpos] at h

/-- The iterations of a run, compared with those of the run from a state that differs
only in the size of the buffer (`n2` entries): as long as the index `j` is at most `n2`
the two runs do the same; once the first run has stored more than `n2` tokens, the
second one has reached an iteration that stores the token with index `n2` outside its
buffer. -/
theorem afterIterations_smaller_buffer (E : RegexLib) (string : CStr)
    (tokens : List token_t) (n2 : Nat) :
    ∀ (n : Nat) (sA sB uA : State), sB.pos = sA.pos → sB.j = sA.j → sB.out = sA.out →
      sB.tokenBuf.length = n2 → sA.j ≤ n2 →
      sB.tokenBuf.take sB.j = sA.tokenBuf.take sA.j →
      afterIterations E string tokens n sA = some uA →
      (uA.j ≤ n2 → ∃ uB, afterIterations E string tokens n sB = some uB ∧
        uB.pos = uA.pos ∧ uB.j = uA.j ∧ uB.out = uA.out ∧
        uB.tokenBuf.take uB.j = uA.tokenBuf.take uA.j) ∧
      (n2 < uA.j → ∃ m uB, afterIterations E string tokens m sB = some uB ∧
        uB.pos < string.length ∧
        iteration E string tokens uB = .aborted (.storeOutOfBounds n2)) := by
  intro n
  induction n with
  | zero =>
    intro sA sB uA hpos hj hout hlen hcap htake h
    simp only [afterIterations, Option.some.injEq] at h
    subst h
    exact ⟨fun _ => ⟨sB, rfl, hpos, hj, hout, htake⟩, fun hgt => by omega⟩
  | succ n ih =>
    intro sA sB uA hpos hj hout hlen hcap htake h
    by_cases hlt : sA.pos < string.length
    · have hltB : sB.pos < string.length := by omega
      cases hit : iteration E string tokens sA with
      | aborted a => simp [afterIterations, hlt, hit] at h
      | done s1 b =>
        rw [afterIterations_succ E string tokens n sA s1 b hlt hit] at h
        rcases iteration_done E string tokens sA s1 b hit with
          ⟨_, hu, hall⟩ | ⟨_, pre, tok, post, m, htok, hpre, hm, hjA, hu⟩
        · subst hu
          have hitB := iteration_none E string tokens sB (by rw [hpos]; exact hall)
          have key := ih { sA with pos := skipSpace string sA.pos + 1 }
            { sB with pos := skipSpace string sB.pos + 1 } uA (by simp only [hpos])
            hj hout hlen hcap htake h
          refine ⟨fun hle => ?_, fun hgt => ?_⟩
          · obtain ⟨uB, h1, h2⟩ := key.1 hle
            exact ⟨uB, by
              rw [afterIterations_succ E string tokens n sB _ false hltB hitB]
              exact h1, h2⟩
          · obtain ⟨k, uB, h1, h2⟩ := key.2 hgt
            exact ⟨k + 1, uB, by
              rw [afterIterations_succ E string tokens k sB _ false hltB hitB]
              exact h1, h2⟩
        · subst hu
          subst htok
          by_cases hjB : sB.j < sB.tokenBuf.length
          · have hitB := iteration_match E string pre tok post sB m
              (by rw [hpos]; exact hpre) (by rw [hpos]; exact hm) hjB
            have key := ih (afterEmit string tok (skipSpace string sA.pos) m.rm_eo sA)
              (afterEmit string tok (skipSpace string sB.pos) m.rm_eo sB) uA
              (by simp only [afterEmit, hpos]) (by simp only [afterEmit, hj])
              (by simp only [afterEmit, hout, hpos])
              (by simp only [afterEmit, List.length_set, hlen])
              (by simp only [afterEmit]; omega)
              (by
                simp only [afterEmit, hpos]
                rw [take_succ_set sB.tokenBuf sB.j _ hjB,
                  take_succ_set sA.tokenBuf sA.j _ hjA, htake])
              h
            refine ⟨fun hle => ?_, fun hgt => ?_⟩
            · obtain ⟨uB, h1, h2⟩ := key.1 hle
              exact ⟨uB, by
                rw [afterIterations_succ E string (pre ++ tok :: post) n sB _ true hltB hitB]
                exact h1, h2⟩
            · obtain ⟨k, uB, h1, h2⟩ := key.2 hgt
              exact ⟨k + 1, uB, by
                rw [afterIterations_succ E string (pre ++ tok :: post) k sB _ true hltB hitB]
                exact h1, h2⟩
          · have hitB := iteration_overflow E string pre tok post sB m
              (by rw [hpos]; exact hpre) (by rw [hpos]; exact hm) hjB
            have hmono := afterIterations_index_mono E string (pre ++ tok :: post) n _ uA h
            simp only [afterEmit] at hmono
            have hjn : sB.j = n2 := by omega
            rw [hjn] at hitB
            exact ⟨fun hle => by omega, fun _ => ⟨0, sB, rfl, hltB, hitB⟩⟩
    · simp [afterIterations, hlt] at h

/-- C8 (amended): the capacity is not checked and no capacity error exists. Compare the
scan on a buffer with room with the scan on a buffer of `nbuf` entries. As long as the
scan has stored at most `nbuf` tokens, the two scans do the same and no store is at an
index `≥ nbuf`; in particular a scan that returns `k ≤ nbuf` tokens with room returns
the same tokens and lines with `nbuf` entries. Once the scan has matched more than
`nbuf` tokens, the token with index `nbuf` was appended all the same: line 75 stores it
at `tokenBuf[nbuf]`, outside the buffer. -/
theorem capacity_is_callers_obligation (E : RegexLib) (string : CStr)
    (tokens : List token_t) (roomy tokenBuf : List (Option CStr))
    (hroom : tokenBuf.length ≤ roomy.length) :
    (∀ n u, afterIterations E string tokens n
        { pos := 0, j := 0, tokenBuf := roomy, out := [] } = some u →
      (u.j ≤ tokenBuf.length →
        ∃ u2, afterIterations E string tokens n
            { pos := 0, j := 0, tokenBuf := tokenBuf, out := [] } = some u2 ∧
          u2.pos = u.pos ∧ u2.j = u.j ∧ u2.out = u.out ∧
          u2.tokenBuf.take u2.j = u.tokenBuf.take u.j) ∧
      (tokenBuf.length < u.j →
        scan E string tokens tokenBuf = .aborted (.storeOutOfBounds tokenBuf.length) ∧
        matcher E string tokens tokenBuf = .aborted (.storeOutOfBounds tokenBuf.length))) ∧
    (∀ r, scan E string tokens roomy = .returned r → r.j ≤ tokenBuf.length →
      ∃ r2, scan E string tokens tokenBuf = .returned r2 ∧ r2.j = r.j ∧ r2.out = r.out ∧
        r2.tokenBuf.take r2.j = r.tokenBuf.take r.j) := by
  have hb := scan_budget E string tokens tokenBuf
  refine ⟨fun n u h => ⟨fun hle => ?_, fun hlt => ?_⟩, fun r hr hle => ?_⟩
  · exact (afterIterations_smaller_buffer E string tokens tokenBuf.length n
      { pos := 0, j := 0, tokenBuf := roomy, out := [] }
      { pos := 0, j := 0, tokenBuf := tokenBuf, out := [] } u rfl rfl rfl rfl
      (Nat.zero_le _) rfl h).1 hle
  · obtain ⟨m, uB, hm, hposB, hitB⟩ := (afterIterations_smaller_buffer E string tokens
      tokenBuf.length n { pos := 0, j := 0, tokenBuf := roomy, out := [] }
      { pos := 0, j := 0, tokenBuf := tokenBuf, out := [] } u rfl rfl rfl rfl
      (Nat.zero_le _) rfl h).2 hlt
    have h1 : loop E string tokens (1 + m)
        { pos := 0, j := 0, tokenBuf := tokenBuf, out := [] } =
        .aborted (.storeOutOfBounds tokenBuf.length) := by
      rw [loop_after E string tokens m 1 _ uB hm]
      exact loop_abort E string tokens 0 uB _ hposB hitB
    have hsc : scan E string tokens tokenBuf =
        .aborted (.storeOutOfBounds tokenBuf.length) := by
      unfold scan at hb ⊢
      have e1 := loop_fuel_add E string tokens (1 + m)
        (string.length + tokenBuf.length + 1) _ hb
      have e2 := loop_fuel_add E string tokens (string.length + tokenBuf.length + 1)
        (1 + m) { pos := 0, j := 0, tokenBuf := tokenBuf, out := [] } (by rw [h1]; simp)
      rw [← e1, show string.length + tokenBuf.length + 1 + (1 + m) =
        1 + m + (string.length + tokenBuf.length + 1) by omega, e2, h1]
    refine ⟨hsc, ?_⟩
    obtain ⟨⟨tr, hlen, _, _, hall⟩, _⟩ := afterIterations_traced E string tokens roomy n u h
    cases tr with
    | nil =>
      simp only [List.length_nil] at hlen
      omega
    | cons e tr =>
      obtain ⟨hmem, _, q, hq, _⟩ := hall e (List.mem_cons_self e tr)
      have hs : string ≠ [] := by
        intro hc
        rw [hc] at hq
        simp at hq
      have ht : tokens ≠ [] := List.ne_nil_of_mem hmem
      rw [matcher_of_scan E string tokens tokenBuf hs ht, hsc]
  · have hfuel : loop E string tokens (string.length + roomy.length + 1)
        { pos := 0, j := 0, tokenBuf := tokenBuf, out := [] } =
        scan E string tokens tokenBuf := by
      unfold scan at hb ⊢
      rw [show string.length + roomy.length + 1 =
        (string.length + tokenBuf.length + 1) + (roomy.length - tokenBuf.length) by omega]
      exact loop_fuel_add E string tokens _ _ _ hb
    have key := loop_smaller_buffer E string tokens tokenBuf.length
      (string.length + roomy.length + 1)
      { pos := 0, j := 0, tokenBuf := roomy, out := [] }
      { pos := 0, j := 0, tokenBuf := tokenBuf, out := [] } r rfl rfl rfl rfl
      (Nat.zero_le _) rfl (Nat.zero_le _) hr
    rw [hfuel] at key
    obtain ⟨r2, h1, h2, h3, h4, _⟩ := key.1 hle
    exact ⟨r2, h1, h2, h3, h4⟩

/-- C8 (amended) on the rules `a`, `b` and the input `ab `, which ends in a blank: with
one entry the second token, matched after one token has been stored, is stored at
index 1, outside the buffer; with two entries the scan does what it does with three. -/
theorem capacity_is_callers_obligation_witness :
    (scan fragmentLib "ab ".toList grammarAB [none] = .aborted (.storeOutOfBounds 1) ∧
      matcher fragmentLib "ab ".toList grammarAB [none] = .aborted (.storeOutOfBounds 1)) ∧
    ∃ u2, afterIterations fragmentLib "ab ".toList grammarAB 2
        { pos := 0, j := 0, tokenBuf := [none, none], out := [] } = some u2 ∧
      u2.pos = 2 ∧ u2.j = 2 ∧ u2.out = ["a\tA\n".toList, "b\tB\n".toList] ∧
      u2.tokenBuf.take u2.j = [(some "a".toList : Option CStr), some "b".toList, none].take 2 :=
  ⟨((capacity_is_callers_obligation fragmentLib "ab ".toList grammarAB [none, none, none]
      [none] (by decide)).1 2
      { pos := 2, j := 2, tokenBuf := [some "a".toList, some "b".toList, none],
        out := ["a\tA\n".toList, "b\tB\n".toList] } (by decide)).2 (by decide),
   ((capacity_is_callers_obligation fragmentLib "ab ".toList grammarAB [none, none, none]
      [none, none] (by decide)).1 2
      { pos := 2, j := 2, tokenBuf := [some "a".toList, some "b".toList, none],
        out := ["a\tA\n".toList, "b\tB\n".toList] } (by decide)).1 (by decide)⟩

/-! ## C10: tokens from beyond the input -/

/-- C10 fails on an input that ends in whitespace: on `a ` (length 2) with the rules `a`
and `b`, after two iterations one token is stored and the cursor is at 3, past the
terminating NUL, so the scan does not end with the tokens of the input: the test of
line 49 reads the byte after the NUL and the loop goes on there. When that byte begins
the string `b`, the loop runs on `b` with the same `j`, buffer and output and returns
with the tokens `a` and `b`; `b` is not a substring of the input at any offset. -/
theorem tokens_from_beyond_input :
    "a ".toList.length = 2 ∧
    afterIterations fragmentLib "a ".toList grammarAB 2 start2 =
      some { pos := 3, j := 1, tokenBuf := [some "a".toList, none],
             out := ["a\tA\n".toList] } ∧
    scan fragmentLib "a ".toList grammarAB [none, none] = .aborted (.readOutOfBounds 3) ∧
    matcher fragmentLib "a ".toList grammarAB [none, none] = .aborted (.readOutOfBounds 3) ∧
    loop fragmentLib "b".toList grammarAB 3
        { pos := 0, j := 1, tokenBuf := [some "a".toList, none], out := ["a\tA\n".toList] } =
      .returned { pos := 1, j := 2, tokenBuf := [some "a".toList, some "b".toList],
                  out := ["a\tA\n".toList, "b\tB\n".toList] } ∧
    (∀ p, ("a ".toList.drop p).take "b".toList.length ≠ "b".toList) := by
  refine ⟨by decide, by decide, by decide, by decide, by decide, ?_⟩
  intro p
  rcases p with _ | _ | p
  · decide
  · decide
  · have h : "a ".toList.drop (p + 1 + 1) = [] := by
      apply List.drop_eq_nil_of_le
      simp
    rw [h]
    decide

end Tokenizer
